import Mathlib

/-!
Verification of the Meltingplot DWC config plugin's patch engine and helpers.

The Python sources (`dsf/config_manager.py`, `dsf/git_utils.py`) are embedded
shallowly: texts are lists of characters (`PyStr`), Python's `str.splitlines`,
`str.rstrip`, list slicing (including negative indices) and the parts of the
standard library `difflib` that `_compute_hunks` relies on are modelled as
executable Lean functions, translated from the CPython implementation that the
code calls (`SequenceMatcher(None, a, b)`, so `isjunk is None`, `autojunk=True`).
-/

/-- Python strings, as lists of characters. -/
abbrev PyStr := List Char

/-- The line-break characters recognised by Python's `str.splitlines`. -/
def isLineTerm (c : Char) : Bool :=
  c = '\n' || c = '\r' || c = '\x0b' || c = '\x0c' ||
  c = '\x1c' || c = '\x1d' || c = '\x1e' || c = '\u0085' || c = '\u2028' || c = '\u2029'

/-- Python `s.splitlines(keepends=True)`: split after every line terminator,
with `"\r\n"` kept together, keeping the terminators.  (A one-character
string is a single line whether or not the character is a terminator.) -/
def py_splitlines : PyStr → List PyStr
  | [] => []
  | [c] => [[c]]
  | c :: d :: rest =>
    if c = '\r' ∧ d = '\n' then ['\r', '\n'] :: py_splitlines rest
    else if isLineTerm c then [c] :: py_splitlines (d :: rest)
    else
      match py_splitlines (d :: rest) with
      | [] => [[c]]
      | l :: ls => (c :: l) :: ls

/-- `"".join(lines)`. -/
def joinL (ls : List PyStr) : PyStr := ls.flatten

/-- Python `s.rstrip("\n")`: drop every trailing `'\n'`. -/
def rstrip_nl (l : PyStr) : PyStr := (l.reverse.dropWhile (· = '\n')).reverse

/-- Normalise a Python slice index to a position in `[0, n]`
(negative indices count from the end, clamped to the list). -/
def py_idx (n : Nat) (i : Int) : Nat :=
  if i < 0 then ((n : Int) + i).toNat else min i.toNat n

/-- Python `l[i:j]` with full slice semantics over `Int` indices. -/
def py_slice (l : List α) (i j : Int) : List α :=
  let n := l.length
  (l.take (py_idx n j)).drop (py_idx n i)

/-- Python `l[i:j]` for plain in-range `Nat` bounds. -/
def nat_slice (l : List α) (i j : Nat) : List α := (l.take j).drop i

/-- Decimal digit character. -/
def digit_char (d : Nat) : Char := Char.ofNat (48 + d)

/-- Decimal digits of `n`, most significant first; the structural fuel
argument bounds the number of divisions by 10 (`n` itself always
suffices, and the fuel-exhausted case is unreachable for `10 ≤ n`). -/
def nat_dec_repr_aux : Nat → Nat → PyStr
  | 0, n => [digit_char (n % 10)]
  | fuel + 1, n =>
    if n < 10 then [digit_char n]
    else nat_dec_repr_aux fuel (n / 10) ++ [digit_char (n % 10)]

/-- Decimal representation of a natural number (Python `"{}".format(n)`). -/
def nat_dec_repr (n : Nat) : PyStr := nat_dec_repr_aux n n

/-- Decimal representation of an integer (Python `str(i)`). -/
def int_dec_repr (i : Int) : PyStr :=
  if i < 0 then '-' :: nat_dec_repr i.natAbs else nat_dec_repr i.toNat

/-- ASCII decimal digit test (`\d` of the hunk-header regex). -/
def is_ascii_digit (c : Char) : Bool := '0' ≤ c && c ≤ '9'

/-- Numeric value of a digit string. -/
def digits_val (ds : List Char) : Nat := ds.foldl (fun a c => a * 10 + (c.toNat - 48)) 0

/-- Parse a maximal nonempty run of digits (`(\d+)` of the regex). -/
def parse_nat_run (s : PyStr) : Option (Nat × PyStr) :=
  let ds := s.takeWhile is_ascii_digit
  if ds = [] then none else some (digits_val ds, s.dropWhile is_ascii_digit)

/-- Match a literal prefix, returning the remainder. -/
def expect_lit (pat : PyStr) (s : PyStr) : Option PyStr :=
  if pat.isPrefixOf s then some (s.drop pat.length) else none

/-- The optional `(?:,(\d+))?` part of the hunk-header regex:
an omitted count defaults to 1. -/
def parse_opt_count (s : PyStr) : Option (Nat × PyStr) :=
  match s with
  | ',' :: rest => parse_nat_run rest
  | _ => some (1, s)

/-- Parsed `@@ -oldStart[,oldCount] +newStart[,newCount] @@` header fields. -/
structure HunkRange where
  old_start : Nat
  old_count : Nat
  new_start : Nat
  new_count : Nat
deriving Repr, DecidableEq

/-- `_parse_hunk_header`: match
`^@@ -(\d+)(?:,(\d+))? \+(\d+)(?:,(\d+))? @@` against the header
(a prefix match; trailing text is ignored). -/
def parse_hunk_header (s : PyStr) : Option HunkRange := do
  let s1 ← expect_lit "@@ -".toList s
  let (os, s2) ← parse_nat_run s1
  let (oc, s3) ← parse_opt_count s2
  let s4 ← expect_lit " +".toList s3
  let (ns, s5) ← parse_nat_run s4
  let (nc, s6) ← parse_opt_count s5
  let _ ← expect_lit " @@".toList s6
  pure ⟨os, oc, ns, nc⟩

/-- One indexed hunk of a unified diff (`_compute_hunks` dict). -/
structure Hunk where
  index : Nat
  header : PyStr
  lines : List PyStr
  summary : PyStr
deriving Repr, DecidableEq, Inhabited

/-- `_hunk_summary`: a human-readable line-range string from the header's
old side; an unparseable header yields the empty string. -/
def hunk_summary (h : Hunk) : PyStr :=
  match parse_hunk_header h.header with
  | none => []
  | some p =>
    let s := p.old_start
    let e : Int := (s : Int) + (p.old_count : Int) - 1
    if (s : Int) = e then "Line ".toList ++ nat_dec_repr s
    else "Lines ".toList ++ nat_dec_repr s ++ '-' :: int_dec_repr e

/-- Partition hunk body lines into (expected old, desired new):
`-` lines are old, `+` lines are new, ` ` context lines are both,
anything else is treated as context verbatim. -/
def split_hunk_lines : List PyStr → (List PyStr × List PyStr)
  | [] => ([], [])
  | l :: rest =>
    let (o, n) := split_hunk_lines rest
    match l with
    | '-' :: t => (t :: o, n)
    | '+' :: t => (o, t :: n)
    | ' ' :: t => (t :: o, t :: n)
    | _ => (l :: o, l :: n)

/-- `_apply_single_hunk(lines, hunk, offset)`: apply one hunk to a line
buffer, returning `(success, new_lines, new_offset)`.  Slicing follows
Python semantics (negative indices count from the end). -/
def apply_single_hunk (lines : List PyStr) (hunk : Hunk) (offset : Int) :
    Bool × List PyStr × Int :=
  match parse_hunk_header hunk.header with
  | none => (false, lines, offset)
  | some parsed =>
    -- old_start is 1-based in diff output
    let start : Int := (parsed.old_start : Int) - 1 + offset
    let (old_lines, new_lines) := split_hunk_lines hunk.lines
    let endI : Int := start + old_lines.length
    if (lines.length : Int) < endI then (false, lines, offset)
    else
      let actual := (py_slice lines start endI).map rstrip_nl
      let expected := old_lines.map rstrip_nl
      if actual ≠ expected then (false, lines, offset)
      else
        (true,
         py_slice lines 0 start ++ new_lines.map (· ++ ['\n'])
           ++ py_slice lines endI lines.length,
         offset + new_lines.length - old_lines.length)

/-- Finalise a hunk by computing its summary (done when the next header
starts or the diff ends). -/
def finish_hunk (h : Hunk) : Hunk := { h with summary := hunk_summary h }

/-- The hunk-splitting loop of `_compute_hunks`: start a hunk at each
`@@` line, collect the following lines (stripped of trailing newlines)
into it, and assign indices in order of appearance. -/
def parse_hunks_loop : List PyStr → Option Hunk → Nat → List Hunk
  | [], none, _ => []
  | [], some h, _ => [finish_hunk h]
  | l :: rest, cur, idx =>
    if "@@".toList.isPrefixOf l then
      (match cur with | none => [] | some h => [finish_hunk h])
        ++ parse_hunks_loop rest (some ⟨idx, rstrip_nl l, [], []⟩) (idx + 1)
    else
      match cur with
      | none => parse_hunks_loop rest none idx
      | some h => parse_hunks_loop rest (some { h with lines := h.lines ++ [rstrip_nl l] }) idx

/-! ## The CPython `difflib` pipeline used by `_compute_hunks`

`_compute_hunks` calls `difflib.unified_diff(a, b, ..., n=3)`, which drives
`SequenceMatcher(None, a, b)`.  With `isjunk is None` the junk set `bjunk`
is empty, so the junk-extension loops of `find_longest_match` never fire and
are omitted; `autojunk` is on, so elements of `b` occurring more than
`len(b)//100 + 1` times in a `b` of at least 200 elements are "popular" and
removed from the index `b2j`. -/

/-- Ascending list of the positions of `x` in `b` (the `b2j` entry built by
`SequenceMatcher.__chain_b` before the autojunk purge). -/
def indices_of (x : PyStr) (b : List PyStr) : List Nat :=
  (List.range b.length).filter (fun j => b.getD j [] = x)

/-- `b2j.get(x, [])` after the autojunk purge of popular elements. -/
def get_b2j (b : List PyStr) (x : PyStr) : List Nat :=
  let idxs := indices_of x b
  if 200 ≤ b.length ∧ b.length / 100 + 1 < idxs.length then [] else idxs

/-- Lookup in the `j2len` association (a Python dict keyed by `j`),
defaulting to 0. -/
def j2get (m : List (Nat × Nat)) (j : Nat) : Nat :=
  ((m.find? (fun e => e.1 == j)).map (·.2)).getD 0

/-- Inner loop of `find_longest_match` over one row `i`: walk the ascending
occurrence list `js` of `a[i]` in `b` (skipping `j < blo`, stopping at
`j >= bhi`), building the new `j2len` row and updating the best match. -/
def process_row (blo bhi : Nat) (prev : List (Nat × Nat)) (i : Nat) :
    List Nat → List (Nat × Nat) → Nat × Nat × Nat → List (Nat × Nat) × (Nat × Nat × Nat)
  | [], acc, best => (acc, best)
  | j :: rest, acc, best =>
    if j < blo then process_row blo bhi prev i rest acc best
    else if bhi ≤ j then (acc, best)
    else
      let k := (if j = 0 then 0 else j2get prev (j - 1)) + 1
      -- Python stores besti = i-k+1, bestj = j-k+1; k ≤ i+1 and k ≤ j+1
      -- always hold (a run ending at (i, j) has length at most i+1, j+1).
      let best' := if best.2.2 < k then (i + 1 - k, j + 1 - k, k) else best
      process_row blo bhi prev i rest ((j, k) :: acc) best'

/-- The left-extension loop of `find_longest_match` (`bjunk` is empty, so
`not isbjunk(...)` is always true).  `besti` decreases by exactly one per
iteration, so the loop recurses structurally on it; at `besti = 0` the
guard `alo < besti` is false and the loop exits, as in the source. -/
def ext_left (a b : List PyStr) (alo blo : Nat) :
    Nat → Nat → Nat → Nat × Nat × Nat
  | 0, bestj, bestsize => (0, bestj, bestsize)
  | besti + 1, bestj, bestsize =>
    if alo < besti + 1 ∧ blo < bestj ∧ a.getD (besti + 1 - 1) [] = b.getD (bestj - 1) [] then
      ext_left a b alo blo besti (bestj - 1) (bestsize + 1)
    else (besti + 1, bestj, bestsize)

/-- The right-extension loop of `find_longest_match`, with a structural
fuel argument equal to `ahi - (besti + bestsize)` (exact: the loop guard
`besti + bestsize < ahi` fails precisely when the fuel is exhausted). -/
def ext_right_aux (a b : List PyStr) (ahi bhi besti bestj : Nat) : Nat → Nat → Nat
  | 0, bestsize => bestsize
  | fuel + 1, bestsize =>
    if besti + bestsize < ahi ∧ bestj + bestsize < bhi ∧
        a.getD (besti + bestsize) [] = b.getD (bestj + bestsize) [] then
      ext_right_aux a b ahi bhi besti bestj fuel (bestsize + 1)
    else bestsize

/-- The right-extension loop of `find_longest_match`. -/
def ext_right (a b : List PyStr) (ahi bhi besti bestj bestsize : Nat) : Nat :=
  ext_right_aux a b ahi bhi besti bestj (ahi - (besti + bestsize)) bestsize

/-- `SequenceMatcher.find_longest_match(alo, ahi, blo, bhi)`:
dynamic-programming scan of rows `alo ≤ i < ahi`, then the equal-element
extension loops (the junk loops are no-ops since `bjunk = ∅`). -/
def find_longest_match (a b : List PyStr) (alo ahi blo bhi : Nat) : Nat × Nat × Nat :=
  let dp := (List.range' alo (ahi - alo)).foldl
    (fun (st : List (Nat × Nat) × (Nat × Nat × Nat)) i =>
      process_row blo bhi st.1 i (get_b2j b (a.getD i [])) [] st.2)
    ([], (alo, blo, 0))
  let bst := ext_left a b alo blo dp.2.1 dp.2.2.1 dp.2.2.2
  (bst.1, bst.2.1, ext_right a b ahi bhi bst.1 bst.2.1 bst.2.2)

/-- The recursive block collection of `get_matching_blocks` (the Python
queue loop followed by `sort()`; the recursion emits blocks directly in
sorted order since all blocks of the left window precede the found match,
which precedes all blocks of the right window).  The fuel argument bounds
the recursion depth; `(ahi - alo) + (bhi - blo) + 1` always suffices. -/
def collect_blocks (a b : List PyStr) : Nat → Nat → Nat → Nat → Nat → List (Nat × Nat × Nat)
  | 0, _, _, _, _ => []
  | fuel + 1, alo, ahi, blo, bhi =>
    let m := find_longest_match a b alo ahi blo bhi
    let i := m.1
    let j := m.2.1
    let k := m.2.2
    if k = 0 then []
    else
      (if alo < i ∧ blo < j then collect_blocks a b fuel alo i blo j else [])
        ++ (i, j, k)
        :: (if i + k < ahi ∧ j + k < bhi then collect_blocks a b fuel (i + k) ahi (j + k) bhi else [])

/-- The adjacent-block merge of `get_matching_blocks` (second loop). -/
def merge_loop : Nat → Nat → Nat → List (Nat × Nat × Nat) → List (Nat × Nat × Nat)
  | i1, j1, k1, [] => if k1 ≠ 0 then [(i1, j1, k1)] else []
  | i1, j1, k1, (i2, j2, k2) :: rest =>
    if i1 + k1 = i2 ∧ j1 + k1 = j2 then merge_loop i1 j1 (k1 + k2) rest
    else (if k1 ≠ 0 then [(i1, j1, k1)] else []) ++ merge_loop i2 j2 k2 rest

/-- `SequenceMatcher.get_matching_blocks()`: collected blocks, adjacent ones
merged, with the `(la, lb, 0)` sentinel appended. -/
def get_matching_blocks (a b : List PyStr) : List (Nat × Nat × Nat) :=
  let la := a.length
  let lb := b.length
  merge_loop 0 0 0 (collect_blocks a b (la + lb + 1) 0 la 0 lb) ++ [(la, lb, 0)]

/-- Opcode tags of `SequenceMatcher.get_opcodes()`. -/
inductive DTag where
  | replace
  | delete
  | insert
  | equal
deriving Repr, DecidableEq, Inhabited

/-- One `(tag, i1, i2, j1, j2)` opcode. -/
structure Opcode where
  tag : DTag
  i1 : Nat
  i2 : Nat
  j1 : Nat
  j2 : Nat
deriving Repr, DecidableEq, Inhabited

/-- The loop of `get_opcodes` over matching blocks, carrying the current
position `(i, j)`. -/
def opcodes_loop : Nat → Nat → List (Nat × Nat × Nat) → List Opcode
  | _, _, [] => []
  | i, j, (ai, bj, size) :: rest =>
    (if i < ai ∧ j < bj then [⟨.replace, i, ai, j, bj⟩]
     else if i < ai then [⟨.delete, i, ai, j, bj⟩]
     else if j < bj then [⟨.insert, i, ai, j, bj⟩]
     else [])
      ++ (if size ≠ 0 then [⟨.equal, ai, ai + size, bj, bj + size⟩] else [])
      ++ opcodes_loop (ai + size) (bj + size) rest

/-- `SequenceMatcher.get_opcodes()`. -/
def get_opcodes (a b : List PyStr) : List Opcode :=
  opcodes_loop 0 0 (get_matching_blocks a b)

/-- Trim a leading `equal` opcode to at most `n` lines of context
(the `codes[0]` fixup of `get_grouped_opcodes`; `max i1 (i2 - n)` in `Nat`
equals Python's `max(i1, i2-n)` over ints). -/
def fix_head (n : Nat) : List Opcode → List Opcode
  | [] => []
  | c :: rest =>
    if c.tag = .equal then
      { c with i1 := max c.i1 (c.i2 - n), j1 := max c.j1 (c.j2 - n) } :: rest
    else c :: rest

/-- Trim a trailing `equal` opcode to at most `n` lines of context
(the `codes[-1]` fixup). -/
def fix_tail (n : Nat) : List Opcode → List Opcode
  | [] => []
  | [c] =>
    if c.tag = .equal then
      [{ c with i2 := min c.i2 (c.i1 + n), j2 := min c.j2 (c.j1 + n) }]
    else [c]
  | c :: rest => c :: fix_tail n rest

/-- The grouping loop of `get_grouped_opcodes`: split at each `equal`
opcode spanning more than `2n` lines, keeping `n` lines of context on each
side; a final group consisting of a single `equal` opcode is dropped. -/
def group_codes (n : Nat) : List Opcode → List Opcode → List (List Opcode)
  | [], grp =>
    match grp with
    | [] => []
    | [c] => if c.tag = .equal then [] else [[c]]
    | c1 :: c2 :: t => [c1 :: c2 :: t]
  | c :: rest, grp =>
    if c.tag = .equal ∧ n + n < c.i2 - c.i1 then
      (grp ++ [{ c with i2 := min c.i2 (c.i1 + n), j2 := min c.j2 (c.j1 + n) }])
        :: group_codes n rest [{ c with i1 := max c.i1 (c.i2 - n), j1 := max c.j1 (c.j2 - n) }]
    else group_codes n rest (grp ++ [c])

/-- `SequenceMatcher.get_grouped_opcodes(n)`. -/
def get_grouped_opcodes (a b : List PyStr) (n : Nat) : List (List Opcode) :=
  let codes0 := get_opcodes a b
  let codes1 := if codes0 = [] then [⟨.equal, 0, 1, 0, 1⟩] else codes0
  group_codes n (fix_tail n (fix_head n codes1)) []

/-- `difflib._format_range_unified(start, stop)`. -/
def format_range_unified (start stop : Nat) : PyStr :=
  let beginning := start + 1
  let length := stop - start
  if length = 1 then nat_dec_repr beginning
  else nat_dec_repr (if length = 0 then beginning - 1 else beginning) ++ ',' :: nat_dec_repr length

/-- The body lines one opcode contributes to a unified-diff hunk. -/
def opcode_lines (a b : List PyStr) (c : Opcode) : List PyStr :=
  match c.tag with
  | .equal => (nat_slice a c.i1 c.i2).map (' ' :: ·)
  | .replace => (nat_slice a c.i1 c.i2).map ('-' :: ·) ++ (nat_slice b c.j1 c.j2).map ('+' :: ·)
  | .delete => (nat_slice a c.i1 c.i2).map ('-' :: ·)
  | .insert => (nat_slice b c.j1 c.j2).map ('+' :: ·)

/-- The `@@ -... +... @@` header line of one group (with `lineterm`). -/
def group_header (g : List Opcode) : PyStr :=
  "@@ -".toList ++ format_range_unified (g.headD default).i1 (g.getLastD default).i2
    ++ " +".toList ++ format_range_unified (g.headD default).j1 (g.getLastD default).j2
    ++ " @@".toList ++ ['\n']

/-- `difflib.unified_diff(a, b, fromfile, tofile, n=3, lineterm="\n")`,
as the list of yielded lines (file headers are emitted only when at least
one group exists). -/
def unified_diff (a b : List PyStr) (fromfile tofile : PyStr) : List PyStr :=
  let groups := get_grouped_opcodes a b 3
  if groups = [] then []
  else
    ("--- ".toList ++ fromfile ++ ['\n'])
      :: ("+++ ".toList ++ tofile ++ ['\n'])
      :: (groups.map (fun g => group_header g :: g.flatMap (opcode_lines a b))).flatten

/-- `ConfigManager._compute_hunks(ref_path, current_content, reference_content)`. -/
def compute_hunks (ref_path current_content reference_content : PyStr) : List Hunk :=
  parse_hunks_loop
    (unified_diff (py_splitlines current_content) (py_splitlines reference_content)
      ("a/".toList ++ ref_path) ("b/".toList ++ ref_path))
    none 0

/-! ## Protected paths, branch resolution, backup deletion, hunk application -/

/-- `PROTECTED_FILES` from `config_manager.py`: reference paths that must
never be overwritten, matched by exact `ref_path`. -/
def PROTECTED_FILES : List PyStr :=
  ["sys/meltingplot/machine-override".toList,
   "sys/meltingplot/dsf-config-override.g".toList]

/-- `is_protected(ref_path)`: `ref_path in PROTECTED_FILES`. -/
def is_protected (ref_path : PyStr) : Bool := decide (ref_path ∈ PROTECTED_FILES)

/-- Python `s.split(".")`. -/
def py_split_dot : PyStr → List PyStr
  | [] => [[]]
  | c :: rest =>
    if c = '.' then [] :: py_split_dot rest
    else
      match py_split_dot rest with
      | [] => [[c]]
      | p :: ps => (c :: p) :: ps

/-- Python `".".join(parts)`. -/
def join_dot : List PyStr → PyStr
  | [] => []
  | [p] => p
  | p :: rest => p ++ '.' :: join_dot rest

/-- The component-stripping loop of `find_closest_branch`:
`while parts: parts.pop(); candidate = ".".join(parts); ...`.
The loop runs exactly `parts.length` times, so it is written with a
structural fuel argument instantiated to `parts.length` at the call site
(the fuel-exhausted case is unreachable). -/
def strip_version_loop (branches : List PyStr) : Nat → List PyStr → Option PyStr
  | _, [] => none
  | 0, _ :: _ => none
  | fuel + 1, p :: ps =>
    let parts' := (p :: ps).dropLast
    let candidate := join_dot parts'
    if candidate ∈ branches then some candidate
    else strip_version_loop branches fuel parts'

/-- `git_utils.find_closest_branch`, over the branch list that
`list_remote_branches` returns (which is sorted ascending).
Returns `(branch?, is_exact_match)`. -/
def find_closest_branch (branches : List PyStr) (version : PyStr) : Option PyStr × Bool :=
  if branches = [] then (none, false)
  else if version ∈ branches then (some version, true)
  else
    match strip_version_loop branches (py_split_dot version).length (py_split_dot version) with
    | some c => (some c, false)
    | none =>
      if "main".toList ∈ branches then (some "main".toList, false)
      else if "master".toList ∈ branches then (some "master".toList, false)
      else (branches.head?, false)

/-- Python `s.startswith(pre)`. -/
def py_startswith (s pre : PyStr) : Bool := pre.isPrefixOf s

/-- `git_utils.backup_delete`, over an abstract model of the backup repo's
linear commit history: `history` lists full commit hashes, root first and
tip (`HEAD`) last.  `rev-parse HEAD` is the last element; `rev-parse c^`
succeeds exactly when `c` has a parent, i.e. occurs past the root;
`git reset --hard HEAD~1` drops the tip; `git rebase --onto c^ c` removes
`c` and re-founds its descendants onto its parent. -/
def backup_delete (history : List PyStr) (commit_hash : PyStr) : Except String (List PyStr) :=
  let head := (history.getLast?).getD []
  let has_parent : Bool := decide (commit_hash ∈ history.drop 1)
  let is_head : Bool :=
    head == commit_hash || py_startswith head commit_hash || py_startswith commit_hash head
  if is_head then
    if !has_parent then .error "Cannot delete the only backup"
    else .ok history.dropLast
  else
    if !has_parent then
      .error "Cannot delete the oldest backup while newer ones exist. Delete newer backups first."
    else .ok (history.erase commit_hash)

/-- The application loop of `apply_hunks`: apply the selected hunks in
order, threading the buffer always and the offset only across successful
applications, partitioning indices into applied and failed. -/
def apply_hunks_fold : List Hunk → List PyStr → Int → List Nat × List Nat × List PyStr × Int
  | [], lines, offset => ([], [], lines, offset)
  | h :: rest, lines, offset =>
    let r := apply_single_hunk lines h offset
    let rec_res := apply_hunks_fold rest r.2.1 (if r.1 then r.2.2 else offset)
    (if r.1 then h.index :: rec_res.1 else rec_res.1,
     if r.1 then rec_res.2.1 else h.index :: rec_res.2.1,
     rec_res.2.2)

/-- The pure core of `ConfigManager.apply_hunks(ref_path, hunk_indices)`
(file I/O and backup bracketing abstracted into the content arguments):
recompute the hunk set, filter to the requested indices, and apply the
selection; returns the applied/failed index lists and the new content. -/
def apply_hunks (ref_path printer_content ref_content : PyStr) (hunk_indices : List Nat) :
    Except PyStr (List Nat × List Nat × PyStr) :=
  if is_protected ref_path then
    .error ("Protected file cannot be overwritten: ".toList ++ ref_path)
  else
    let hunks := compute_hunks ref_path printer_content ref_content
    let selected := hunks.filter (fun h => decide (h.index ∈ hunk_indices))
    if selected = [] then .error "No valid hunks selected".toList
    else
      let r := apply_hunks_fold selected (py_splitlines printer_content) 0
      .ok (r.1, r.2.1, joinL r.2.2.1)

/-- Result values of `ConfigManager.diff_file`. -/
inductive DiffFileResult where
  | fail (msg : PyStr)
  | not_in_reference
  | missing (hunks : List Hunk) (unifiedDiff : PyStr)
  | unchanged (hunks : List Hunk) (unifiedDiff : PyStr)
  | modified (hunks : List Hunk) (unifiedDiff : PyStr)
deriving Repr, DecidableEq

/-- The pure core of `ConfigManager.diff_file(ref_path)`: `printer_path`
is the result of `_ref_to_printer_path`, and the two content arguments are
the results of reading the reference and printer files (`none` = absent). -/
def diff_file (ref_path : PyStr) (printer_path : Option PyStr)
    (ref_content printer_content : Option PyStr) : DiffFileResult :=
  match printer_path with
  | none => .fail ("Unknown reference path: ".toList ++ ref_path)
  | some _ =>
    if is_protected ref_path then .fail ("Protected file: ".toList ++ ref_path)
    else
      match ref_content with
      | none => .not_in_reference
      | some rc =>
        match printer_content with
        | none =>
          .missing (compute_hunks ref_path [] rc)
            (joinL (unified_diff [] (py_splitlines rc)
              ("a/".toList ++ ref_path) ("b/".toList ++ ref_path)))
        | some pc =>
          if rc = pc then .unchanged [] []
          else
            .modified (compute_hunks ref_path pc rc)
              (joinL (unified_diff (py_splitlines pc) (py_splitlines rc)
                ("a/".toList ++ ref_path) ("b/".toList ++ ref_path)))

/-! ## Derived notions used in the claim statements -/

/-- Thread a whole hunk list through `apply_single_hunk` in order,
feeding each returned buffer and offset into the next call
(the multi-hunk application protocol). -/
def apply_all_hunks (hunks : List Hunk) (lines : List PyStr) : List PyStr × Int :=
  hunks.foldl
    (fun (st : List PyStr × Int) h =>
      let r := apply_single_hunk st.1 h st.2
      (r.2.1, r.2.2))
    (lines, 0)

/-- A buffer line carrying exactly one `'\n'`, at its end. -/
def ends_with_single_nl (l : PyStr) : Bool :=
  l.count '\n' = 1 && l.getLast? = some '\n'

/-- Every line of the text (as split by Python's `splitlines`) is
`'\n'`-terminated (this permits `"\r\n"` but excludes a final line without
a newline and lines broken by other terminator characters). -/
def nl_terminated_lines (s : PyStr) : Prop :=
  ∀ l ∈ py_splitlines s, l.getLast? = some '\n'

instance (s : PyStr) : Decidable (nl_terminated_lines s) := by
  unfold nl_terminated_lines; infer_instance

/-- A line of `b` is "popular" for difflib's autojunk heuristic: `b` has at
least 200 lines and the line occurs more than `len(b)//100 + 1` times. -/
def autojunk_popular (b : List PyStr) (x : PyStr) : Prop :=
  200 ≤ b.length ∧ b.length / 100 + 1 < (indices_of x b).length

instance (b : List PyStr) (x : PyStr) : Decidable (autojunk_popular b x) := by
  unfold autojunk_popular; infer_instance

/-- The candidate list described by the spec: strip trailing dot-separated
components one at a time (`3.5.1` → `3.5` → `3` → the empty name). -/
def strip_candidates (parts : List PyStr) : List PyStr :=
  (List.range parts.length).map (fun t => join_dot (parts.take (parts.length - 1 - t)))

/-- Branch resolution as the specification words it: exact match; else the
first stripped candidate present; else `main`; else `master`; else the
first (lexicographically smallest, since the list is sorted) branch. -/
def spec_resolve_branch (branches : List PyStr) (version : PyStr) : Option PyStr × Bool :=
  if branches = [] then (none, false)
  else if version ∈ branches then (some version, true)
  else
    match (strip_candidates (py_split_dot version)).find? (fun c => decide (c ∈ branches)) with
    | some c => (some c, false)
    | none =>
      if "main".toList ∈ branches then (some "main".toList, false)
      else if "master".toList ∈ branches then (some "master".toList, false)
      else (branches.head?, false)

/-- No hash in the history is a proper prefix of another (true of equal-length
full git hashes), so the abbreviation tests in `backup_delete` reduce to
equality. -/
def prefix_free (hist : List PyStr) : Prop :=
  ∀ x ∈ hist, ∀ y ∈ hist, py_startswith x y → x = y

instance (hist : List PyStr) : Decidable (prefix_free hist) := by
  unfold prefix_free; infer_instance

/-- Length of the run of non-popular positions (positions whose element
survives the autojunk purge of `get_b2j`) ending at `j`: the exact value of
the `j2len` diagonal entry of `find_longest_match` when comparing a text
with itself. -/
def RA (a : List PyStr) : Nat → Nat
  | 0 => if get_b2j a (a.getD 0 []) = [] then 0 else 1
  | j + 1 => if get_b2j a (a.getD (j + 1) []) = [] then 0 else RA a j + 1

/-- The hunk list that `parse_hunks_loop` builds from a diff consisting of
hunk groups, each a header line followed by its body lines (used to state
the structure of `compute_hunks` output). -/
def mk_hunks : Nat → List (PyStr × List PyStr) → List Hunk
  | _, [] => []
  | idx, g :: rest =>
    finish_hunk ⟨idx, rstrip_nl g.1, g.2.map rstrip_nl, []⟩ :: mk_hunks (idx + 1) rest

/-- Correctness of one opcode's fields for its tag: an `equal` opcode
relates identical slices, `insert`/`delete` are one-sided, and every tag's
nonempty side is genuinely nonempty. -/
def TagOK (a b : List PyStr) (c : Opcode) : Prop :=
  match c.tag with
  | .equal => c.i1 < c.i2 ∧ c.i2 - c.i1 = c.j2 - c.j1
      ∧ nat_slice a c.i1 c.i2 = nat_slice b c.j1 c.j2
  | .insert => c.i1 = c.i2 ∧ c.j1 < c.j2
  | .delete => c.j1 = c.j2 ∧ c.i1 < c.i2
  | .replace => c.i1 < c.i2 ∧ c.j1 < c.j2

/-- A list of opcodes tiles the region from `(i, j)` to `(iE, jE)`:
each opcode starts where the previous one ended and is `TagOK`. -/
def GroupTile (a b : List PyStr) : Nat → Nat → List Opcode → Nat → Nat → Prop
  | i, j, [], iE, jE => i = iE ∧ j = jE
  | i, j, c :: rest, iE, jE =>
      c.i1 = i ∧ c.j1 = j ∧ TagOK a b c ∧ GroupTile a b c.i2 c.j2 rest iE jE

/-- Matching blocks are ordered, nonempty, within the window
`[loA, hiA) × [loB, hiB)`, and relate equal elements pointwise. -/
def ChainOK (a b : List PyStr) : Nat → Nat → Nat → Nat → List (Nat × Nat × Nat) → Prop
  | _, _, _, _, [] => True
  | loA, loB, hiA, hiB, (i, j, k) :: rest =>
      loA ≤ i ∧ loB ≤ j ∧ 1 ≤ k ∧ i + k ≤ hiA ∧ j + k ≤ hiB
      ∧ (∀ t, t < k → a.getD (i + t) [] = b.getD (j + t) [])
      ∧ ChainOK a b (i + k) (j + k) hiA hiB rest

/-- An opcode list tiles from `(i, j)` all the way to the ends of `a`
and `b`, each opcode `TagOK`. -/
def OpsOK (a b : List PyStr) : Nat → Nat → List Opcode → Prop
  | i, j, [] => i = a.length ∧ j = b.length
  | i, j, c :: rest => c.i1 = i ∧ c.j1 = j ∧ TagOK a b c ∧ OpsOK a b c.i2 c.j2 rest

/-- No two adjacent opcodes are both non-`equal` (as produced by
`get_opcodes`, where gap opcodes are separated by `equal` ones). -/
def AltOK : List Opcode → Prop
  | [] => True
  | [_] => True
  | c1 :: c2 :: rest => (c1.tag = .equal ∨ c2.tag = .equal) ∧ AltOK (c2 :: rest)

/-- The grouped-opcode structure that hunk application relies on: each
group tiles a region of `a`/`b`, regions of consecutive groups are
separated by identical aligned gaps, every group's old side is nonempty,
and the final gap runs to the ends of both texts. -/
def GroupsOK (a b : List PyStr) : Nat → Nat → List (List Opcode) → Prop
  | pA, pB, [] => a.drop pA = b.drop pB
  | pA, pB, g :: rest => ∃ iE jE,
      pA ≤ (g.headD default).i1 ∧ pB ≤ (g.headD default).j1
      ∧ (g.headD default).i1 - pA = (g.headD default).j1 - pB
      ∧ nat_slice a pA (g.headD default).i1 = nat_slice b pB (g.headD default).j1
      ∧ g ≠ []
      ∧ GroupTile a b (g.headD default).i1 (g.headD default).j1 g iE jE
      ∧ (g.headD default).i1 < iE
      ∧ iE ≤ a.length ∧ jE ≤ b.length
      ∧ (g.getLastD default).i2 = iE ∧ (g.getLastD default).j2 = jE
      ∧ GroupsOK a b iE jE rest

/-- Validity of a `j2len` entry `(j, k)` for row `i` of the
`find_longest_match` scan: a genuine common run of length `k` ends at
`(i, j)` and stays inside the window. -/
def EntryOK (a b : List PyStr) (alo blo i : Nat) (e : Nat × Nat) : Prop :=
  1 ≤ e.2 ∧ e.2 ≤ i + 1 - alo ∧ e.2 ≤ e.1 + 1 - blo ∧ alo ≤ i ∧ blo ≤ e.1
  ∧ ∀ t, t < e.2 → a.getD (i - t) [] = b.getD (e.1 - t) []

/-- Validity of a candidate best match within the window. -/
def BestOK (a b : List PyStr) (alo ahi blo bhi : Nat) (m : Nat × Nat × Nat) : Prop :=
  alo ≤ m.1 ∧ m.1 + m.2.2 ≤ ahi ∧ blo ≤ m.2.1 ∧ m.2.1 + m.2.2 ≤ bhi
  ∧ ∀ t, t < m.2.2 → a.getD (m.1 + t) [] = b.getD (m.2.1 + t) []

/-! ## Basic lemmas about Python slicing and hunk application -/

theorem take_min_length (l : List α) (j : Nat) : l.take (min j l.length) = l.take j := by
  rcases le_total j l.length with h | h
  · rw [min_eq_left h]
  · rw [min_eq_right h, List.take_of_length_le h, List.take_length]

theorem drop_min_length (l l' : List α) (i : Nat) (h : l'.length ≤ l.length) :
    l'.drop (min i l.length) = l'.drop i := by
  rcases le_total i l.length with h' | h'
  · rw [min_eq_left h']
  · rw [min_eq_right h', List.drop_eq_nil_of_le h, List.drop_eq_nil_of_le (le_trans h h')]

theorem py_idx_coe (n j : Nat) : py_idx n (j : Int) = min j n := by
  simp [py_idx]

theorem py_slice_coe (l : List α) (i j : Nat) :
    py_slice l (i : Int) (j : Int) = (l.take j).drop i := by
  have hlen : (l.take j).length ≤ l.length := by
    rw [List.length_take]; omega
  rw [py_slice, py_idx_coe, py_idx_coe, take_min_length, drop_min_length _ _ _ hlen]

theorem py_slice_nonneg (l : List α) (i j : Int) (hi : 0 ≤ i) (hj : 0 ≤ j) :
    py_slice l i j = (l.take j.toNat).drop i.toNat := by
  obtain ⟨a, rfl⟩ : ∃ a : Nat, i = (a : Int) := ⟨i.toNat, (Int.toNat_of_nonneg hi).symm⟩
  obtain ⟨b, rfl⟩ : ∃ b : Nat, j = (b : Int) := ⟨j.toNat, (Int.toNat_of_nonneg hj).symm⟩
  rw [py_slice_coe]
  simp

theorem py_slice_zero_len (l : List α) :
    py_slice l 0 (l.length : Int) = l := by
  rw [show (0 : Int) = ((0 : Nat) : Int) from rfl, py_slice_coe,
    List.take_length, List.drop_zero]

/-- `apply_single_hunk` either fails leaving the buffer and offset
unchanged, or succeeds. -/
theorem apply_single_hunk_cases (lines : List PyStr) (hunk : Hunk) (offset : Int) :
    apply_single_hunk lines hunk offset = (false, lines, offset) ∨
      (apply_single_hunk lines hunk offset).1 = true := by
  unfold apply_single_hunk
  rcases parse_hunk_header hunk.header with _ | p
  · exact Or.inl rfl
  · rcases split_hunk_lines hunk.lines with ⟨ol, nl⟩
    dsimp only
    split
    · exact Or.inl rfl
    · split
      · exact Or.inl rfl
      · exact Or.inr rfl

/-- A failed `apply_single_hunk` returns the buffer and offset unchanged. -/
theorem apply_single_hunk_fail (lines : List PyStr) (hunk : Hunk) (offset : Int)
    (h : (apply_single_hunk lines hunk offset).1 = false) :
    apply_single_hunk lines hunk offset = (false, lines, offset) := by
  rcases apply_single_hunk_cases lines hunk offset with h' | h'
  · exact h'
  · rw [h'] at h; exact absurd h (by simp)

/-! ## Claims C2, C3: single-hunk application -/

/-- C2: for every line buffer, hunk, and offset, if the application range
end `(oldStart - 1 + offset) + len(expectedOld)` exceeds the buffer length,
or the buffer lines in `[start, end)` do not equal the hunk's expected old
lines after stripping trailing newlines, or the hunk header does not parse,
then `apply_single_hunk` returns failure with the buffer and the offset
both unchanged. -/
theorem C2_apply_single_hunk_failure (lines : List PyStr) (hunk : Hunk) (offset : Int)
    (hfail : parse_hunk_header hunk.header = none ∨
      ∃ p, parse_hunk_header hunk.header = some p ∧
        ((lines.length : Int) <
            ((p.old_start : Int) - 1 + offset) + (split_hunk_lines hunk.lines).1.length ∨
          (py_slice lines ((p.old_start : Int) - 1 + offset)
              (((p.old_start : Int) - 1 + offset) + (split_hunk_lines hunk.lines).1.length)).map
              rstrip_nl
            ≠ ((split_hunk_lines hunk.lines).1).map rstrip_nl)) :
    apply_single_hunk lines hunk offset = (false, lines, offset) := by
  apply apply_single_hunk_fail
  unfold apply_single_hunk
  rcases hfail with hp | ⟨p, hp, hcase⟩
  · rw [hp]
  · rw [hp]
    rcases hsp : split_hunk_lines hunk.lines with ⟨ol, nl⟩
    rw [hsp] at hcase
    dsimp only at hcase ⊢
    rcases hcase with hlen | hctx
    · rw [if_pos hlen]
    · by_cases hl : (lines.length : Int) < (p.old_start : Int) - 1 + offset + ol.length
      · rw [if_pos hl]
      · rw [if_neg hl, if_pos hctx]

/-- Witness for C2 at a concrete input: an unparseable header fails and
leaves the buffer and offset unchanged. -/
theorem C2_apply_single_hunk_failure_witness :
    parse_hunk_header ("garbage".toList) = none ∧
      apply_single_hunk ["a\n".toList] ⟨0, "garbage".toList, [], []⟩ 0 =
        (false, ["a\n".toList], 0) :=
  ⟨by decide,
   C2_apply_single_hunk_failure _ _ _ (Or.inl (by decide))⟩

/-- C3: for every line buffer, hunk with parseable header, and offset such
that the bound and context checks succeed, `apply_single_hunk` succeeds,
replaces the slice `[start, end)` of the buffer (Python slice semantics;
when `0 ≤ start` this is exactly positions `start` to `end`) by the desired
new lines, each re-terminated with a newline, leaves the rest of the buffer
unchanged, and returns `offset + len(desiredNew) - len(expectedOld)`. -/
theorem C3_apply_single_hunk_success (lines : List PyStr) (hunk : Hunk) (offset : Int)
    (p : HunkRange) (start endI : Int)
    (hp : parse_hunk_header hunk.header = some p)
    (hstart : start = (p.old_start : Int) - 1 + offset)
    (hend : endI = start + (split_hunk_lines hunk.lines).1.length)
    (hlen : endI ≤ (lines.length : Int))
    (hctx : (py_slice lines start endI).map rstrip_nl
      = ((split_hunk_lines hunk.lines).1).map rstrip_nl) :
    apply_single_hunk lines hunk offset =
      (true,
        py_slice lines 0 start
          ++ ((split_hunk_lines hunk.lines).2).map (· ++ ['\n'])
          ++ py_slice lines endI (lines.length : Int),
        offset + (split_hunk_lines hunk.lines).2.length
          - (split_hunk_lines hunk.lines).1.length)
    ∧ (0 ≤ start →
        (apply_single_hunk lines hunk offset).2.1 =
          lines.take start.toNat
            ++ ((split_hunk_lines hunk.lines).2).map (· ++ ['\n'])
            ++ lines.drop endI.toNat) := by
  rcases hsp : split_hunk_lines hunk.lines with ⟨ol, nl⟩
  rw [hsp] at hend hctx
  dsimp only at hend hctx ⊢
  have hmain : apply_single_hunk lines hunk offset =
      (true,
        py_slice lines 0 start ++ nl.map (· ++ ['\n']) ++ py_slice lines endI (lines.length : Int),
        offset + nl.length - ol.length) := by
    unfold apply_single_hunk
    rw [hp, hsp]
    dsimp only
    rw [← hstart, ← hend, if_neg (by omega), if_neg (by simp [hctx])]
  refine ⟨hmain, fun hpos => ?_⟩
  rw [hmain]
  have hpos' : (0 : Int) ≤ endI := by
    rw [hend]; have := Int.natCast_nonneg ol.length; omega
  have h0 : py_slice lines 0 start = lines.take start.toNat := by
    rw [py_slice_nonneg lines 0 start (le_refl 0) hpos]
    simp
  have h2 : py_slice lines endI (lines.length : Int) = lines.drop endI.toNat := by
    rw [py_slice_nonneg lines endI (lines.length : Int) hpos' (Int.natCast_nonneg _)]
    rw [Int.toNat_natCast, List.take_length]
  rw [h0, h2]

/-- Witness for C3 at a concrete input: replacing the middle line of a
three-line buffer. -/
theorem C3_apply_single_hunk_success_witness :
    parse_hunk_header ("@@ -1,3 +1,3 @@".toList) = some ⟨1, 3, 1, 3⟩ ∧
      apply_single_hunk ["line1\n".toList, "old\n".toList, "line3\n".toList]
          ⟨0, "@@ -1,3 +1,3 @@".toList, [" line1".toList, "-old".toList, "+new".toList, " line3".toList], []⟩ 0 =
        (true, ["line1\n".toList, "new\n".toList, "line3\n".toList], 0) := by
  refine ⟨by decide, ?_⟩
  have h := (C3_apply_single_hunk_success
    ["line1\n".toList, "old\n".toList, "line3\n".toList]
    ⟨0, "@@ -1,3 +1,3 @@".toList, [" line1".toList, "-old".toList, "+new".toList, " line3".toList], []⟩
    0 ⟨1, 3, 1, 3⟩ 0 3 (by decide) (by decide) (by decide) (by decide) (by decide)).1
  rw [h]
  decide

/-! ## Claim C5: protected-path classification (code bug) -/

/-- C5: the repository's own tests (`test_config_manager.py`,
`TestIsProtected`) require `is_protected` to match the exact protected
paths *and* the protected directory prefix `sys/meltingplot/machine-override`,
so that `sys/meltingplot/machine-override.g` is protected; the shipped
`is_protected` matches by exact path only (`ref_path in PROTECTED_FILES`),
so the prefix cases the claim (and the tests) require come out `false`.
This theorem evaluates the code at the failing inputs and records the
exact-match behaviour it does have. -/
theorem C5_is_protected_code_bug :
    is_protected "sys/meltingplot/machine-override.g".toList = false ∧
      is_protected "sys/meltingplot/machine-override/some-file.g".toList = false ∧
      is_protected "sys/meltingplot/machine-override".toList = true ∧
      is_protected "sys/meltingplot/dsf-config-override.g".toList = true ∧
      is_protected "sys/my-override-settings.g".toList = false ∧
      ∀ p : PyStr, is_protected p = true ↔
        p = "sys/meltingplot/machine-override".toList ∨
          p = "sys/meltingplot/dsf-config-override.g".toList := by
  refine ⟨by decide, by decide, by decide, by decide, by decide, fun p => ?_⟩
  simp [is_protected, PROTECTED_FILES]

/-! ## Claim C6: branch resolution -/

theorem strip_candidates_cons (p : PyStr) (ps : List PyStr) :
    strip_candidates (p :: ps) =
      join_dot ((p :: ps).dropLast) :: strip_candidates ((p :: ps).dropLast) := by
  have hdl : (p :: ps).dropLast = (p :: ps).take ps.length := by
    rw [List.dropLast_eq_take]; simp
  have hdll : ((p :: ps).dropLast).length = ps.length := by simp
  unfold strip_candidates
  simp only [List.length_cons]
  rw [List.range_succ_eq_map, List.map_cons, List.map_map]
  congr 1
  · simp [hdl]
  · rw [hdll]
    apply List.map_congr_left
    intro t ht
    rw [List.mem_range] at ht
    simp only [Function.comp_apply]
    congr 1
    rw [hdl, List.take_take]
    congr 1
    omega

theorem strip_loop_eq_find_aux (branches : List PyStr) (fuel : Nat) :
    ∀ parts : List PyStr, parts.length = fuel →
      strip_version_loop branches fuel parts =
        (strip_candidates parts).find? (fun c => decide (c ∈ branches)) := by
  induction fuel with
  | zero =>
    intro parts h
    match parts with
    | [] => simp [strip_version_loop, strip_candidates]
    | p :: ps => simp at h
  | succ n ih =>
    intro parts h
    match parts with
    | [] => simp at h
    | p :: ps =>
      rw [strip_version_loop, strip_candidates_cons]
      have hlen : ((p :: ps).dropLast).length = n := by
        simp [List.length_dropLast]
        simpa using h
      by_cases hmem : join_dot ((p :: ps).dropLast) ∈ branches
      · simp only [hmem, if_true]
        rw [List.find?_cons_of_pos _ (by simpa using hmem)]
      · rw [if_neg hmem, List.find?_cons_of_neg _ (by simpa using hmem)]
        exact ih _ hlen

theorem strip_loop_eq_find (branches : List PyStr) (parts : List PyStr) :
    strip_version_loop branches parts.length parts =
      (strip_candidates parts).find? (fun c => decide (c ∈ branches)) :=
  strip_loop_eq_find_aux branches parts.length parts rfl

/-- C6: branch resolution maps a target version and the available branch
list to `(branch, exact)` exactly as the spec describes: exact member →
`(target, true)`; else the first candidate obtained by stripping trailing
dot-separated components one at a time that is present; else `main`, else
`master`, else the first available branch (the lexicographically smallest,
since `list_remote_branches` returns a sorted list), all inexact; an empty
branch list yields no branch.  The three concrete examples of the claim
are included. -/
theorem C6_find_closest_branch :
    (∀ branches version,
        find_closest_branch branches version = spec_resolve_branch branches version)
    ∧ (∀ version, find_closest_branch [] version = (none, false))
    ∧ find_closest_branch
        ["3.5".toList, "3.5.0".toList, "3.5.1".toList, "main".toList] "3.5.2".toList
        = (some "3.5".toList, false)
    ∧ find_closest_branch
        ["3.5".toList, "3.5.0".toList, "3.5.1".toList, "main".toList] "3.5.1".toList
        = (some "3.5.1".toList, true)
    ∧ find_closest_branch ["main".toList] "9.9.9".toList = (some "main".toList, false) := by
  refine ⟨fun branches version => ?_, fun version => by simp [find_closest_branch],
    by decide, by decide, by decide⟩
  unfold find_closest_branch spec_resolve_branch
  rw [strip_loop_eq_find]

/-! ## Claim C9: backup deletion -/

/-- Under a duplicate-free, prefix-free history, the abbreviation-tolerant
head test of `backup_delete` is exactly "the target is the tip". -/
theorem backup_is_head_iff (history : List PyStr) (commit : PyStr)
    (hne : history ≠ []) (hpf : prefix_free history) (hmem : commit ∈ history) :
    (history.getLast?.getD [] == commit
        || py_startswith (history.getLast?.getD []) commit
        || py_startswith commit (history.getLast?.getD [])) = true
      ↔ commit = history.getLast hne := by
  have hlast : history.getLast? = some (history.getLast hne) := List.getLast?_eq_getLast _ _
  have hlmem : history.getLast hne ∈ history := List.getLast_mem hne
  rw [hlast]
  simp only [Option.getD_some, Bool.or_eq_true, beq_iff_eq]
  constructor
  · rintro ((h | h) | h)
    · exact h.symm
    · exact (hpf _ hlmem _ hmem h).symm
    · exact hpf _ hmem _ hlmem h
  · rintro rfl
    exact Or.inl (Or.inl rfl)

/-- In a duplicate-free history, a member commit has a parent (i.e. occurs
past the root) iff it is not the first entry. -/
theorem backup_has_parent_iff (history : List PyStr) (commit : PyStr)
    (hnd : history.Nodup) (hmem : commit ∈ history) :
    commit ∈ history.drop 1 ↔ history.head? ≠ some commit := by
  match history with
  | [] => cases hmem
  | h0 :: rest =>
    rw [List.nodup_cons] at hnd
    simp only [List.drop_one, List.tail_cons, List.head?_cons, ne_eq, Option.some.injEq]
    constructor
    · intro hin heq
      subst heq
      exact hnd.1 hin
    · intro hne
      rcases List.mem_cons.mp hmem with rfl | hr
      · exact absurd rfl hne
      · exact hr

/-- C9: deleting a backup commit raises an explicit error in exactly two
cases — the target is the tip with no parent (the only backup), or the
target is not the tip and has no parent (the root while newer backups
exist); a tip with a parent is dropped by resetting history back one step,
and a middle commit with a parent is removed with its descendants
re-founded onto its parent.  `history` is the linear backup chain, root
first, tip last; hashes are duplicate-free and prefix-free (full git
hashes). -/
theorem C9_backup_delete (history : List PyStr) (commit : PyStr)
    (hne : history ≠ []) (hnd : history.Nodup) (hpf : prefix_free history)
    (hmem : commit ∈ history) :
    (history = [commit] →
        backup_delete history commit = .error "Cannot delete the only backup")
    ∧ (history.head? = some commit → commit ≠ history.getLast hne →
        backup_delete history commit =
          .error "Cannot delete the oldest backup while newer ones exist. Delete newer backups first.")
    ∧ (commit = history.getLast hne → 2 ≤ history.length →
        backup_delete history commit = .ok history.dropLast
          ∧ history = history.dropLast ++ [commit])
    ∧ (history.head? ≠ some commit → commit ≠ history.getLast hne →
        ∃ pre suf, history = pre ++ commit :: suf ∧ pre ≠ [] ∧
          backup_delete history commit = .ok (pre ++ suf)) := by
  have hhead := backup_is_head_iff history commit hne hpf hmem
  have hpar := backup_has_parent_iff history commit hnd hmem
  refine ⟨?_, ?_, ?_, ?_⟩
  · rintro rfl
    simp [backup_delete]
  · intro hh hlast
    have hihF : (history.getLast?.getD [] == commit
        || py_startswith (history.getLast?.getD []) commit
        || py_startswith commit (history.getLast?.getD [])) = false :=
      Bool.eq_false_iff.mpr (fun h => hlast (hhead.mp h))
    have hnp : commit ∉ history.tail := by
      rw [← List.drop_one]; exact fun h => (hpar.mp h) hh
    unfold backup_delete
    dsimp only
    rw [hihF]
    simp [hnp]
  · intro heq hlen
    have hih : (history.getLast?.getD [] == commit
        || py_startswith (history.getLast?.getD []) commit
        || py_startswith commit (history.getLast?.getD [])) = true := hhead.mpr heq
    have hp : commit ∈ history.drop 1 := by
      match history, hne with
      | h0 :: r0 :: rest, _ =>
        have hc : commit = (r0 :: rest).getLast (by simp) := by
          rw [heq]; simp [List.getLast_cons]
        rw [hc]
        exact List.getLast_mem (l := r0 :: rest) (by simp)
      | [h0], _ => simp at hlen
    have hp' : commit ∈ history.tail := by rw [← List.drop_one]; exact hp
    constructor
    · unfold backup_delete
      dsimp only
      rw [hih]
      simp [hp']
    · conv_lhs => rw [← List.dropLast_append_getLast hne]
      rw [heq]
  · intro hh hlast
    have hihF : (history.getLast?.getD [] == commit
        || py_startswith (history.getLast?.getD []) commit
        || py_startswith commit (history.getLast?.getD [])) = false :=
      Bool.eq_false_iff.mpr (fun h => hlast (hhead.mp h))
    have hp : commit ∈ history.drop 1 := hpar.mpr hh
    obtain ⟨pre, suf, hsplit⟩ := List.append_of_mem hmem
    have hpre : pre ≠ [] := by
      rintro rfl
      exact hh (by rw [hsplit]; rfl)
    refine ⟨pre, suf, hsplit, hpre, ?_⟩
    unfold backup_delete
    dsimp only
    rw [hihF]
    have hp' : decide (commit ∈ List.drop 1 history) = true := decide_eq_true hp
    simp only [hp', Bool.not_true, Bool.false_eq_true, if_false]
    have hcp : commit ∉ pre := by
      intro hcin
      rw [hsplit] at hnd
      rcases List.nodup_append.mp hnd with ⟨_, _, hdisj⟩
      exact hdisj hcin (List.mem_cons_self _ _)
    rw [hsplit, List.erase_append_right _ hcp, List.erase_cons_head]

/-- Witness for C9 on a concrete three-commit history: deleting the tip
drops exactly the tip; deleting the root errors; deleting the only commit
errors; deleting the middle commit re-founds the tip onto the root. -/
theorem C9_backup_delete_witness :
    backup_delete ["aaaa".toList, "bbbb".toList, "cccc".toList] "cccc".toList
        = .ok ["aaaa".toList, "bbbb".toList]
    ∧ backup_delete ["aaaa".toList, "bbbb".toList, "cccc".toList] "aaaa".toList =
        .error "Cannot delete the oldest backup while newer ones exist. Delete newer backups first."
    ∧ backup_delete ["aaaa".toList] "aaaa".toList = .error "Cannot delete the only backup"
    ∧ backup_delete ["aaaa".toList, "bbbb".toList, "cccc".toList] "bbbb".toList
        = .ok ["aaaa".toList, "cccc".toList] := by
  refine ⟨?_, ?_, ?_, ?_⟩
  · exact ((C9_backup_delete ["aaaa".toList, "bbbb".toList, "cccc".toList] "cccc".toList
      (by decide) (by decide) (by decide) (by decide)).2.2.1 (by decide) (by decide)).1
  · exact (C9_backup_delete ["aaaa".toList, "bbbb".toList, "cccc".toList] "aaaa".toList
      (by decide) (by decide) (by decide) (by decide)).2.1 (by decide) (by decide)
  · exact (C9_backup_delete ["aaaa".toList] "aaaa".toList
      (by decide) (by decide) (by decide) (by decide)).1 rfl
  · obtain ⟨pre, suf, hsplit, hpre, hres⟩ :=
      (C9_backup_delete ["aaaa".toList, "bbbb".toList, "cccc".toList] "bbbb".toList
        (by decide) (by decide) (by decide) (by decide)).2.2.2 (by decide) (by decide)
    have hps : pre = ["aaaa".toList] ∧ suf = ["cccc".toList] := by
      rcases pre with _ | ⟨a, _ | ⟨b, _ | _⟩⟩ <;> simp_all
    rw [hres, hps.1, hps.2]
    rfl

/-! ## Claim C4: applying a selected subset of hunks -/

theorem map_index_filter_mem (l : List Hunk) (idxs : List Nat) :
    (l.filter (fun h => decide (h.index ∈ idxs))).map (·.index)
      = (l.map (·.index)).filter (fun i => decide (i ∈ idxs)) := by
  induction l with
  | nil => rfl
  | cons h t ih =>
    by_cases hp : h.index ∈ idxs <;> simp [List.filter_cons, hp, ih]

theorem apply_hunks_fold_fail_cons (h : Hunk) (rest : List Hunk) (lines : List PyStr)
    (offset : Int) (hf : (apply_single_hunk lines h offset).1 = false) :
    apply_hunks_fold (h :: rest) lines offset =
      ((apply_hunks_fold rest lines offset).1,
        h.index :: (apply_hunks_fold rest lines offset).2.1,
        (apply_hunks_fold rest lines offset).2.2) := by
  have hfix := apply_single_hunk_fail _ _ _ hf
  simp [apply_hunks_fold, hfix]

theorem apply_hunks_fold_success_cons (h : Hunk) (rest : List Hunk) (lines l' : List PyStr)
    (offset o' : Int) (hs : apply_single_hunk lines h offset = (true, l', o')) :
    apply_hunks_fold (h :: rest) lines offset =
      (h.index :: (apply_hunks_fold rest l' o').1,
        (apply_hunks_fold rest l' o').2.1,
        (apply_hunks_fold rest l' o').2.2) := by
  simp [apply_hunks_fold, hs]

theorem apply_hunks_error_of_empty (rp pc rc : PyStr) (idxs : List Nat)
    (hprot : is_protected rp = false)
    (hsel : (compute_hunks rp pc rc).filter (fun h => decide (h.index ∈ idxs)) = []) :
    apply_hunks rp pc rc idxs = .error "No valid hunks selected".toList := by
  unfold apply_hunks
  rw [hprot]
  simp only [Bool.false_eq_true, if_false, hsel]
  simp

theorem apply_hunks_ok_of_nonempty (rp pc rc : PyStr) (idxs : List Nat)
    (hprot : is_protected rp = false)
    (hsel : (compute_hunks rp pc rc).filter (fun h => decide (h.index ∈ idxs)) ≠ []) :
    apply_hunks rp pc rc idxs
      = .ok ((apply_hunks_fold ((compute_hunks rp pc rc).filter
            (fun h => decide (h.index ∈ idxs))) (py_splitlines pc) 0).1,
          (apply_hunks_fold ((compute_hunks rp pc rc).filter
            (fun h => decide (h.index ∈ idxs))) (py_splitlines pc) 0).2.1,
          joinL (apply_hunks_fold ((compute_hunks rp pc rc).filter
            (fun h => decide (h.index ∈ idxs))) (py_splitlines pc) 0).2.2.1) := by
  unfold apply_hunks
  rw [hprot]
  simp only [Bool.false_eq_true, if_false, if_neg hsel]

theorem apply_hunks_empty_of_error (rp pc rc : PyStr) (idxs : List Nat)
    (hprot : is_protected rp = false)
    (herr : apply_hunks rp pc rc idxs = .error "No valid hunks selected".toList) :
    (compute_hunks rp pc rc).filter (fun h => decide (h.index ∈ idxs)) = [] := by
  by_cases hsel : (compute_hunks rp pc rc).filter (fun h => decide (h.index ∈ idxs)) = []
  · exact hsel
  · rw [apply_hunks_ok_of_nonempty rp pc rc idxs hprot hsel] at herr
    exact absurd herr (by simp)

set_option maxHeartbeats 1000000 in
/-- C4: `apply_hunks` recomputes the hunk set, filters to the requested
indices (so unknown indices are silently dropped — the selected index list
is exactly the computed indices that were requested), errors explicitly
when no requested index exists, and otherwise applies the filtered,
index-ordered subset: a failing hunk contributes its index to `failed`,
leaves the buffer and offset untouched for the following hunks, and does
not stop them; a succeeding hunk contributes its index to `applied` and
threads its new buffer and offset onward. -/
theorem C4_apply_hunks (ref_path printer_content ref_content : PyStr)
    (hunk_indices : List Nat)
    (hprot : is_protected ref_path = false) :
    (((compute_hunks ref_path printer_content ref_content).filter
          (fun h => decide (h.index ∈ hunk_indices))).map (·.index)
        = ((compute_hunks ref_path printer_content ref_content).map (·.index)).filter
            (fun i => decide (i ∈ hunk_indices)))
    ∧ ((compute_hunks ref_path printer_content ref_content).filter
          (fun h => decide (h.index ∈ hunk_indices)) = [] ↔
        apply_hunks ref_path printer_content ref_content hunk_indices
          = .error "No valid hunks selected".toList)
    ∧ ((compute_hunks ref_path printer_content ref_content).filter
          (fun h => decide (h.index ∈ hunk_indices)) ≠ [] →
        apply_hunks ref_path printer_content ref_content hunk_indices
          = .ok ((apply_hunks_fold ((compute_hunks ref_path printer_content ref_content).filter
                (fun h => decide (h.index ∈ hunk_indices))) (py_splitlines printer_content) 0).1,
              (apply_hunks_fold ((compute_hunks ref_path printer_content ref_content).filter
                (fun h => decide (h.index ∈ hunk_indices))) (py_splitlines printer_content) 0).2.1,
              joinL (apply_hunks_fold ((compute_hunks ref_path printer_content ref_content).filter
                (fun h => decide (h.index ∈ hunk_indices))) (py_splitlines printer_content) 0).2.2.1))
    ∧ (∀ (h : Hunk) (rest : List Hunk) (lines : List PyStr) (offset : Int),
        (apply_single_hunk lines h offset).1 = false →
          apply_hunks_fold (h :: rest) lines offset =
            ((apply_hunks_fold rest lines offset).1,
              h.index :: (apply_hunks_fold rest lines offset).2.1,
              (apply_hunks_fold rest lines offset).2.2))
    ∧ (∀ (h : Hunk) (rest : List Hunk) (lines l' : List PyStr) (offset o' : Int),
        apply_single_hunk lines h offset = (true, l', o') →
          apply_hunks_fold (h :: rest) lines offset =
            (h.index :: (apply_hunks_fold rest l' o').1,
              (apply_hunks_fold rest l' o').2.1,
              (apply_hunks_fold rest l' o').2.2)) :=
  ⟨map_index_filter_mem _ _,
   ⟨apply_hunks_error_of_empty _ _ _ _ hprot, apply_hunks_empty_of_error _ _ _ _ hprot⟩,
   apply_hunks_ok_of_nonempty _ _ _ _ hprot,
   apply_hunks_fold_fail_cons,
   apply_hunks_fold_success_cons⟩

/-- Witness for C4 at a concrete input: one real hunk requested together
with an unknown index 7, which is silently dropped. -/
theorem C4_apply_hunks_witness :
    is_protected "sys/config.g".toList = false ∧
      apply_hunks "sys/config.g".toList "a\nb\n".toList "x\nb\n".toList [0, 7]
        = .ok ([0], [], "x\nb\n".toList) := by
  refine ⟨by decide, ?_⟩
  have h := (C4_apply_hunks "sys/config.g".toList "a\nb\n".toList "x\nb\n".toList [0, 7]
    (by decide)).2.2.1 (by decide)
  rw [h]
  rfl

/-! ## Claim C8: hunk indexing and summaries -/

theorem hunk_summary_finish (h : Hunk) : hunk_summary (finish_hunk h) = hunk_summary h := rfl

theorem parse_hunks_loop_length (dls : List PyStr) :
    ∀ (cur : Option Hunk) (idx : Nat),
      (parse_hunks_loop dls cur idx).length =
        dls.countP (fun l => "@@".toList.isPrefixOf l)
          + (match cur with | none => 0 | some _ => 1) := by
  induction dls with
  | nil => intro cur idx; cases cur <;> simp [parse_hunks_loop]
  | cons l rest ih =>
    intro cur idx
    by_cases hl : "@@".toList.isPrefixOf l
    · have hl2 : ((['@', '@'] : List Char) <+: l) := by simpa using hl
      cases cur <;> simp [parse_hunks_loop, hl, hl2, ih, List.countP_cons]
    · have hl2 : ¬ ((['@', '@'] : List Char) <+: l) := by simpa using hl
      cases cur <;> simp [parse_hunks_loop, hl, hl2, ih, List.countP_cons]

theorem parse_hunks_loop_indices (dls : List PyStr) :
    ∀ (cur : Option Hunk) (idx : Nat),
      (parse_hunks_loop dls cur idx).map (·.index) =
        (match cur with | none => [] | some h => [h.index])
          ++ List.range' idx (dls.countP (fun l => "@@".toList.isPrefixOf l)) := by
  induction dls with
  | nil => intro cur idx; cases cur <;> simp [parse_hunks_loop, finish_hunk]
  | cons l rest ih =>
    intro cur idx
    by_cases hl : "@@".toList.isPrefixOf l
    · have hl2 : ((['@', '@'] : List Char) <+: l) := by simpa using hl
      have hr := ih (some ⟨idx, rstrip_nl l, [], []⟩) (idx + 1)
      cases cur <;>
        simp [parse_hunks_loop, hl, hl2, List.countP_cons, hr, finish_hunk,
          List.range'_succ]
    · have hl2 : ¬ ((['@', '@'] : List Char) <+: l) := by simpa using hl
      cases cur with
      | none => simpa [parse_hunks_loop, hl, hl2, List.countP_cons] using ih none idx
      | some h =>
        have hr := ih (some { h with lines := h.lines ++ [rstrip_nl l] }) idx
        simp only [parse_hunks_loop, hl, if_false, List.countP_cons] at hr ⊢
        simp [hr, hl, hl2]

theorem parse_hunks_loop_summary (dls : List PyStr) :
    ∀ (cur : Option Hunk) (idx : Nat) (h : Hunk),
      h ∈ parse_hunks_loop dls cur idx → h.summary = hunk_summary h := by
  induction dls with
  | nil =>
    intro cur idx h hmem
    cases cur with
    | none => cases hmem
    | some h0 =>
      simp only [parse_hunks_loop, List.mem_singleton] at hmem
      subst hmem
      rw [hunk_summary_finish]
      rfl
  | cons l rest ih =>
    intro cur idx h hmem
    by_cases hl : "@@".toList.isPrefixOf l
    · simp only [parse_hunks_loop, hl, if_true, List.mem_append] at hmem
      rcases hmem with hmem | hmem
      · cases cur with
        | none => cases hmem
        | some h0 =>
          simp only [List.mem_singleton] at hmem
          subst hmem
          rw [hunk_summary_finish]
          rfl
      · exact ih _ _ _ hmem
    · cases cur with
      | none =>
        simp only [parse_hunks_loop, hl, if_false] at hmem
        exact ih _ _ _ hmem
      | some h0 =>
        simp only [parse_hunks_loop, hl, if_false] at hmem
        exact ih _ _ _ hmem

theorem hunk_summary_formula (h : Hunk) :
    hunk_summary h =
      match parse_hunk_header h.header with
      | none => []
      | some pr =>
        if pr.old_count = 1 then "Line ".toList ++ nat_dec_repr pr.old_start
        else "Lines ".toList ++ nat_dec_repr pr.old_start
          ++ '-' :: int_dec_repr ((pr.old_start : Int) + (pr.old_count : Int) - 1) := by
  unfold hunk_summary
  cases parse_hunk_header h.header with
  | none => rfl
  | some pr =>
    dsimp only
    by_cases hc : pr.old_count = 1
    · rw [if_pos (by omega), if_pos hc]
    · rw [if_neg (by omega), if_neg hc]

/-- C8: in every hunk sequence returned by `compute_hunks`, the `index`
fields are exactly `0, 1, 2, ...` in order of appearance; each summary is
computed from the parsed header's old side as `"Line {start}"` when the
count is 1 and `"Lines {start}-{start+count-1}"` otherwise, an
unparseable header yielding the empty summary; and the splitting loop
never aborts: it returns one hunk per `@@` line of its input. -/
theorem C8_compute_hunks_indices_summaries :
    (∀ p A B, (compute_hunks p A B).map (·.index)
        = List.range (compute_hunks p A B).length)
    ∧ (∀ p A B h, h ∈ compute_hunks p A B →
        h.summary =
          match parse_hunk_header h.header with
          | none => []
          | some pr =>
            if pr.old_count = 1 then "Line ".toList ++ nat_dec_repr pr.old_start
            else "Lines ".toList ++ nat_dec_repr pr.old_start
              ++ '-' :: int_dec_repr ((pr.old_start : Int) + (pr.old_count : Int) - 1))
    ∧ (∀ dls, (parse_hunks_loop dls none 0).length
        = dls.countP (fun l => "@@".toList.isPrefixOf l)) := by
  refine ⟨fun p A B => ?_, fun p A B h hmem => ?_, fun dls => ?_⟩
  · unfold compute_hunks
    rw [parse_hunks_loop_indices, parse_hunks_loop_length]
    simp [List.range_eq_range']
  · rw [← hunk_summary_formula]
    exact parse_hunks_loop_summary _ _ _ _ hmem
  · rw [parse_hunks_loop_length]
    rfl

/-- Witness for C8 at a concrete diff with one hunk. -/
theorem C8_compute_hunks_indices_summaries_witness :
    (⟨0, "@@ -1 +1 @@".toList, ["-a".toList, "+b".toList], "Line 1".toList⟩ : Hunk)
        ∈ compute_hunks "f".toList "a\n".toList "b\n".toList
    ∧ ("Line 1".toList : PyStr) =
        match parse_hunk_header "@@ -1 +1 @@".toList with
        | none => []
        | some pr =>
          if pr.old_count = 1 then "Line ".toList ++ nat_dec_repr pr.old_start
          else "Lines ".toList ++ nat_dec_repr pr.old_start
            ++ '-' :: int_dec_repr ((pr.old_start : Int) + (pr.old_count : Int) - 1) := by
  refine ⟨by decide, ?_⟩
  exact C8_compute_hunks_indices_summaries.2.1 "f".toList "a\n".toList "b\n".toList
    ⟨0, "@@ -1 +1 @@".toList, ["-a".toList, "+b".toList], "Line 1".toList⟩ (by decide)

/-! ## Structure of `py_splitlines`, `rstrip_nl` and the parsed hunks -/

theorem py_splitlines_ne_nil (c : Char) (s : PyStr) : py_splitlines (c :: s) ≠ [] := by
  cases s with
  | nil => simp [py_splitlines]
  | cons d rest =>
    rw [py_splitlines]
    split
    · simp
    · split
      · simp
      · split <;> simp

theorem py_splitlines_join : ∀ s : PyStr, joinL (py_splitlines s) = s := by
  intro s
  induction s using py_splitlines.induct with
  | case1 => rfl
  | case2 c => rfl
  | case3 c d rest hcd ih =>
    rw [py_splitlines, if_pos hcd, joinL, List.flatten_cons]
    obtain ⟨rfl, rfl⟩ := hcd
    simpa [joinL] using ih
  | case4 c d rest hcd hterm ih =>
    rw [py_splitlines, if_neg hcd, if_pos hterm, joinL, List.flatten_cons]
    simpa [joinL] using ih
  | case5 c d rest hcd hterm hemp ih =>
    rw [py_splitlines, if_neg hcd, if_neg hterm, hemp]
    rw [hemp] at ih
    simp [joinL] at ih
  | case6 c d rest hcd hterm l ls heq ih =>
    rw [py_splitlines, if_neg hcd, if_neg hterm, heq]
    rw [heq] at ih
    simp only [joinL, List.flatten_cons] at ih ⊢
    rw [List.cons_append, ih]

/-- Every line produced by `py_splitlines` is nonempty and contains `'\n'`
at most as its final character. -/
theorem py_splitlines_lines (s : PyStr) :
    ∀ l ∈ py_splitlines s, l ≠ [] ∧ '\n' ∉ l.dropLast := by
  induction s using py_splitlines.induct with
  | case1 => intro l hl; cases hl
  | case2 c =>
    intro l hl
    have hl2 : l = [c] := by
      have : py_splitlines [c] = [[c]] := rfl
      rw [this] at hl
      simpa using hl
    subst hl2
    exact ⟨by simp, by simp⟩
  | case3 c d rest hcd ih =>
    rw [py_splitlines, if_pos hcd]
    intro l hl
    rcases List.mem_cons.mp hl with rfl | h
    · exact ⟨by simp, by simp⟩
    · exact ih l h
  | case4 c d rest hcd hterm ih =>
    rw [py_splitlines, if_neg hcd, if_pos hterm]
    intro l hl
    rcases List.mem_cons.mp hl with rfl | h
    · exact ⟨by simp, by simp⟩
    · exact ih l h
  | case5 c d rest hcd hterm hemp ih =>
    rw [py_splitlines, if_neg hcd, if_neg hterm, hemp]
    exact absurd hemp (py_splitlines_ne_nil d rest)
  | case6 c d rest hcd hterm l0 ls heq ih =>
    rw [py_splitlines, if_neg hcd, if_neg hterm, heq]
    intro l hl
    have hc_ne : c ≠ '\n' := by
      intro hc
      subst hc
      exact hterm (by simp [isLineTerm])
    rcases List.mem_cons.mp hl with rfl | h
    · have hl0 := ih l0 (heq ▸ List.mem_cons_self _ _)
      refine ⟨by simp, ?_⟩
      rcases hl0 with ⟨hne, hbody⟩
      match l0, hne with
      | x :: t, _ =>
        rw [List.dropLast_cons₂]
        intro hmem
        rcases List.mem_cons.mp hmem with rfl | hmem
        · exact hc_ne rfl
        · exact hbody hmem
    · exact ih l (heq ▸ List.mem_cons_of_mem _ h)

theorem dropWhile_all_ne (xs : List Char) (h : ∀ c ∈ xs, c ≠ '\n') :
    xs.dropWhile (· = '\n') = xs := by
  cases xs with
  | nil => rfl
  | cons a t =>
    rw [List.dropWhile_cons]
    rw [if_neg (by simpa using h a (List.mem_cons_self _ _))]

theorem rstrip_nl_of_not_mem (l : PyStr) (h : '\n' ∉ l) : rstrip_nl l = l := by
  unfold rstrip_nl
  rw [dropWhile_all_ne _ (fun c hc hceq => h (hceq ▸ (List.mem_reverse.mp hc))), List.reverse_reverse]

theorem rstrip_nl_append_nl (l : PyStr) : rstrip_nl (l ++ ['\n']) = rstrip_nl l := by
  unfold rstrip_nl
  rw [List.reverse_append]
  simp [List.dropWhile_cons]

theorem rstrip_nl_cons (c : Char) (l : PyStr) (hc : c ≠ '\n') :
    rstrip_nl (c :: l) = c :: rstrip_nl l := by
  unfold rstrip_nl
  rw [List.reverse_cons, List.dropWhile_append]
  by_cases hemp : (l.reverse.dropWhile (· = '\n')).isEmpty
  · rw [if_pos hemp]
    rw [List.isEmpty_iff] at hemp
    rw [hemp]
    simp [List.dropWhile_cons, hc]
  · rw [if_neg hemp]
    rw [List.isEmpty_iff] at hemp
    rw [List.reverse_append]
    match hdw : l.reverse.dropWhile (· = '\n'), hemp with
    | x :: t, _ => simp

theorem rstrip_nl_body_not_mem (l : PyStr) (h : '\n' ∉ l.dropLast) : '\n' ∉ rstrip_nl l := by
  rcases List.eq_nil_or_concat l with rfl | ⟨xs, x, rfl⟩
  · simp [rstrip_nl]
  · simp only [List.concat_eq_append] at h ⊢
    rw [List.dropLast_concat] at h
    by_cases hx : x = '\n'
    · subst hx
      rw [rstrip_nl_append_nl, rstrip_nl_of_not_mem _ h]
      exact h
    · rw [rstrip_nl_of_not_mem]
      · simp [hx, h, eq_comm]
      · simp [hx, h, eq_comm]

theorem rstrip_nl_restore (l : PyStr) (hbody : '\n' ∉ l.dropLast)
    (hlast : l.getLast? = some '\n') : rstrip_nl l ++ ['\n'] = l := by
  rcases List.eq_nil_or_concat l with rfl | ⟨xs, x, rfl⟩
  · simp at hlast
  · simp only [List.concat_eq_append] at hbody hlast ⊢
    rw [List.getLast?_concat] at hlast
    rw [List.dropLast_concat] at hbody
    obtain rfl : x = '\n' := by simpa using hlast
    rw [rstrip_nl_append_nl, rstrip_nl_of_not_mem _ hbody]

theorem at_prefix_false (c : Char) (l : PyStr) (hc : c ≠ '@') :
    "@@".toList.isPrefixOf (c :: l) = false := by
  have h1 : ('@' == c) = false := by
    simp only [beq_eq_false_iff_ne, ne_eq]
    exact fun h => hc h.symm
  show List.isPrefixOf ['@', '@'] (c :: l) = false
  rw [List.isPrefixOf, h1, Bool.false_and]

theorem at_prefix_true (l : PyStr) :
    "@@".toList.isPrefixOf ('@' :: '@' :: l) = true := by
  show List.isPrefixOf ['@', '@'] ('@' :: '@' :: l) = true
  rw [List.isPrefixOf, List.isPrefixOf]
  simp [List.isPrefixOf]

theorem parse_skip (pre rest : List PyStr) (idx : Nat)
    (hpre : ∀ l ∈ pre, "@@".toList.isPrefixOf l = false) :
    parse_hunks_loop (pre ++ rest) none idx = parse_hunks_loop rest none idx := by
  induction pre with
  | nil => rfl
  | cons l pre ih =>
    have hl := hpre l (List.mem_cons_self _ _)
    rw [List.cons_append, parse_hunks_loop, if_neg (by rw [hl]; simp)]
    exact ih (fun x hx => hpre x (List.mem_cons_of_mem _ hx))

theorem parse_acc (body : List PyStr) (rest : List PyStr) (h : Hunk) (idx : Nat)
    (hbody : ∀ l ∈ body, "@@".toList.isPrefixOf l = false) :
    parse_hunks_loop (body ++ rest) (some h) idx
      = parse_hunks_loop rest (some { h with lines := h.lines ++ body.map rstrip_nl }) idx := by
  induction body generalizing h with
  | nil => simp
  | cons l body ih =>
    have hl := hbody l (List.mem_cons_self _ _)
    rw [List.cons_append, parse_hunks_loop, if_neg (by rw [hl]; simp)]
    show parse_hunks_loop (body ++ rest) (some { h with lines := h.lines ++ [rstrip_nl l] }) idx = _
    rw [ih _ (fun x hx => hbody x (List.mem_cons_of_mem _ hx))]
    simp [List.append_assoc]

theorem parse_pop_at (l : PyStr) (rest : List PyStr) (h : Hunk) (idx : Nat)
    (hl : "@@".toList.isPrefixOf l = true) :
    parse_hunks_loop (l :: rest) (some h) idx
      = finish_hunk h :: parse_hunks_loop (l :: rest) none idx := by
  rw [parse_hunks_loop, parse_hunks_loop, if_pos hl, if_pos hl]
  rfl

theorem parse_groups (gs : List (PyStr × List PyStr)) (idx : Nat)
    (hgs : ∀ g ∈ gs, "@@".toList.isPrefixOf g.1 = true
      ∧ ∀ l ∈ g.2, "@@".toList.isPrefixOf l = false) :
    parse_hunks_loop ((gs.map (fun g => g.1 :: g.2)).flatten) none idx = mk_hunks idx gs := by
  induction gs generalizing idx with
  | nil => rfl
  | cons g rest ih =>
    obtain ⟨hg1, hg2⟩ := hgs g (List.mem_cons_self _ _)
    have hrest := fun x hx => hgs x (List.mem_cons_of_mem _ hx)
    rw [List.map_cons, List.flatten_cons, List.cons_append, parse_hunks_loop, if_pos hg1]
    show parse_hunks_loop (g.2 ++ (rest.map _).flatten)
      (some ⟨idx, rstrip_nl g.1, [], []⟩) (idx + 1) = _
    rw [parse_acc _ _ _ _ hg2]
    cases rest with
    | nil => rfl
    | cons g2 rest2 =>
      have hg21 := (hgs g2 (List.mem_cons_of_mem _ (List.mem_cons_self _ _))).1
      have hpfx : "@@".toList.isPrefixOf g2.1 = true := hg21
      have hflat : (List.map (fun g => g.1 :: g.2) (g2 :: rest2)).flatten
          = g2.1 :: (g2.2 ++ (List.map (fun g => g.1 :: g.2) rest2).flatten) := by simp
      rw [hflat, parse_pop_at _ _ _ _ hpfx, ← hflat, ih (idx + 1) hrest]
      rfl

theorem parse_two_skip (l1 l2 : PyStr) (flat : List PyStr) (idx : Nat)
    (h1 : "@@".toList.isPrefixOf l1 = false) (h2 : "@@".toList.isPrefixOf l2 = false) :
    parse_hunks_loop (l1 :: l2 :: flat) none idx = parse_hunks_loop flat none idx := by
  refine parse_skip [l1, l2] flat idx ?_
  intro l hl
  rcases List.mem_cons.mp hl with rfl | hl
  · exact h1
  rcases List.mem_cons.mp hl with rfl | hl
  · exact h2
  cases hl

theorem group_header_at (g : List Opcode) : "@@".toList.isPrefixOf (group_header g) = true := by
  show List.isPrefixOf ['@', '@'] _ = true
  unfold group_header
  rw [show "@@ -".toList = ['@', '@', ' ', '-'] from rfl]
  rw [List.cons_append, List.cons_append]
  exact at_prefix_true _

theorem nat_slice_subset (l : List PyStr) (i j : Nat) : ∀ x ∈ nat_slice l i j, x ∈ l := by
  intro x hx
  exact List.mem_of_mem_take (List.mem_of_mem_drop hx)

theorem opcode_lines_shape (a b : List PyStr) (c : Opcode) :
    ∀ l ∈ opcode_lines a b c,
      ∃ p e, l = p :: e ∧ (p = ' ' ∨ p = '-' ∨ p = '+') ∧ (e ∈ a ∨ e ∈ b) := by
  intro l hl
  unfold opcode_lines at hl
  rcases htag : c.tag with _ | _ | _ | _
  all_goals rw [htag] at hl
  all_goals dsimp only at hl
  · rcases List.mem_append.mp hl with hl | hl
    · obtain ⟨e, he, rfl⟩ := List.mem_map.mp hl
      exact ⟨'-', e, rfl, Or.inr (Or.inl rfl), Or.inl (nat_slice_subset _ _ _ _ he)⟩
    · obtain ⟨e, he, rfl⟩ := List.mem_map.mp hl
      exact ⟨'+', e, rfl, Or.inr (Or.inr rfl), Or.inr (nat_slice_subset _ _ _ _ he)⟩
  · obtain ⟨e, he, rfl⟩ := List.mem_map.mp hl
    exact ⟨'-', e, rfl, Or.inr (Or.inl rfl), Or.inl (nat_slice_subset _ _ _ _ he)⟩
  · obtain ⟨e, he, rfl⟩ := List.mem_map.mp hl
    exact ⟨'+', e, rfl, Or.inr (Or.inr rfl), Or.inr (nat_slice_subset _ _ _ _ he)⟩
  · obtain ⟨e, he, rfl⟩ := List.mem_map.mp hl
    exact ⟨' ', e, rfl, Or.inl rfl, Or.inl (nat_slice_subset _ _ _ _ he)⟩

theorem mk_hunks_mem (idx : Nat) (gs : List (PyStr × List PyStr)) :
    ∀ h ∈ mk_hunks idx gs, ∃ g ∈ gs, h.header = rstrip_nl g.1 ∧ h.lines = g.2.map rstrip_nl := by
  induction gs generalizing idx with
  | nil => intro h hh; cases hh
  | cons g rest ih =>
    intro h hh
    rw [mk_hunks] at hh
    rcases List.mem_cons.mp hh with rfl | hh
    · exact ⟨g, List.mem_cons_self _ _, rfl, rfl⟩
    · obtain ⟨g', hg', h1, h2⟩ := ih (idx + 1) h hh
      exact ⟨g', List.mem_cons_of_mem _ hg', h1, h2⟩

theorem compute_hunks_eq_mk (p A B : PyStr) :
    compute_hunks p A B =
      mk_hunks 0 ((get_grouped_opcodes (py_splitlines A) (py_splitlines B) 3).map
        (fun g => (group_header g,
          g.flatMap (opcode_lines (py_splitlines A) (py_splitlines B))))) := by
  unfold compute_hunks unified_diff
  dsimp only
  by_cases hg : get_grouped_opcodes (py_splitlines A) (py_splitlines B) 3 = []
  · rw [hg]
    simp [parse_hunks_loop, mk_hunks]
  · rw [if_neg hg]
    refine Eq.trans (parse_two_skip _ _ _ 0 ?_ ?_) ?_
    · exact at_prefix_false '-' _ (by decide)
    · exact at_prefix_false '+' _ (by decide)
    rw [show (get_grouped_opcodes (py_splitlines A) (py_splitlines B) 3).map
          (fun g => group_header g
            :: g.flatMap (opcode_lines (py_splitlines A) (py_splitlines B)))
        = ((get_grouped_opcodes (py_splitlines A) (py_splitlines B) 3).map
            (fun g => (group_header g,
              g.flatMap (opcode_lines (py_splitlines A) (py_splitlines B))))).map
            (fun g => g.1 :: g.2) from by rw [List.map_map]; rfl]
    refine parse_groups _ 0 ?_
    intro g hgm
    obtain ⟨g0, hg0, rfl⟩ := List.mem_map.mp hgm
    refine ⟨group_header_at g0, ?_⟩
    intro l hl
    obtain ⟨c, hc, hlc⟩ := List.mem_flatMap.mp hl
    obtain ⟨pc, e, rfl, hp, _⟩ := opcode_lines_shape _ _ _ l hlc
    rcases hp with rfl | rfl | rfl <;> exact at_prefix_false _ _ (by decide)

theorem compute_hunks_lines_nl_free (p A B : PyStr) :
    ∀ h ∈ compute_hunks p A B, ∀ x ∈ h.lines, '\n' ∉ x := by
  intro h hh x hx
  rw [compute_hunks_eq_mk] at hh
  obtain ⟨g, hg, _, hlines⟩ := mk_hunks_mem _ _ h hh
  rw [hlines] at hx
  obtain ⟨bl, hbl, rfl⟩ := List.mem_map.mp hx
  obtain ⟨g0, hg0, rfl⟩ := List.mem_map.mp hg
  obtain ⟨c, hc, hblc⟩ := List.mem_flatMap.mp hbl
  obtain ⟨pc, e, rfl, hp, he⟩ := opcode_lines_shape _ _ _ bl hblc
  have hpne : pc ≠ '\n' := by rcases hp with rfl | rfl | rfl <;> decide
  rw [rstrip_nl_cons _ _ hpne]
  intro hmem
  rcases List.mem_cons.mp hmem with heq | hmem
  · exact hpne heq.symm
  · have hbody : '\n' ∉ e.dropLast := by
      rcases he with he | he
      · exact (py_splitlines_lines A e he).2
      · exact (py_splitlines_lines B e he).2
    exact rstrip_nl_body_not_mem e hbody hmem

theorem split_hunk_lines_mem (ls : List PyStr) :
    ∀ x, (x ∈ (split_hunk_lines ls).1 ∨ x ∈ (split_hunk_lines ls).2) →
      ∃ l ∈ ls, x = l ∨ ∃ c, l = c :: x := by
  induction ls with
  | nil => intro x hx; rcases hx with h | h <;> cases h
  | cons l rest ih =>
    intro x hx
    obtain ⟨o, n, hon⟩ : ∃ o n, split_hunk_lines rest = (o, n) := ⟨_, _, rfl⟩
    rw [split_hunk_lines, hon] at hx
    dsimp only at hx
    have hmem : ∀ y, y ∈ o ∨ y ∈ n → ∃ l' ∈ l :: rest, y = l' ∨ ∃ c, l' = c :: y := by
      intro y hy
      obtain ⟨l', hl', hor⟩ := ih y (by rw [hon]; exact hy)
      exact ⟨l', List.mem_cons_of_mem _ hl', hor⟩
    rcases hx with hx | hx <;> split at hx
    · rename_i t
      rcases List.mem_cons.mp hx with rfl | hx
      · exact ⟨'-' :: x, List.mem_cons_self _ _, Or.inr ⟨'-', rfl⟩⟩
      · exact hmem x (Or.inl hx)
    · rename_i t
      exact hmem x (Or.inl hx)
    · rename_i t
      rcases List.mem_cons.mp hx with rfl | hx
      · exact ⟨' ' :: x, List.mem_cons_self _ _, Or.inr ⟨' ', rfl⟩⟩
      · exact hmem x (Or.inl hx)
    · rcases List.mem_cons.mp hx with rfl | hx
      · exact ⟨x, List.mem_cons_self _ _, Or.inl rfl⟩
      · exact hmem x (Or.inl hx)
    · rename_i t
      exact hmem x (Or.inr hx)
    · rename_i t
      rcases List.mem_cons.mp hx with rfl | hx
      · exact ⟨'+' :: x, List.mem_cons_self _ _, Or.inr ⟨'+', rfl⟩⟩
      · exact hmem x (Or.inr hx)
    · rename_i t
      rcases List.mem_cons.mp hx with rfl | hx
      · exact ⟨' ' :: x, List.mem_cons_self _ _, Or.inr ⟨' ', rfl⟩⟩
      · exact hmem x (Or.inr hx)
    · rcases List.mem_cons.mp hx with rfl | hx
      · exact ⟨x, List.mem_cons_self _ _, Or.inl rfl⟩
      · exact hmem x (Or.inr hx)

theorem ends_with_single_nl_mk (x : PyStr) (hx : '\n' ∉ x) :
    ends_with_single_nl (x ++ ['\n']) = true := by
  unfold ends_with_single_nl
  rw [List.count_append, List.count_eq_zero.mpr hx, List.getLast?_concat]
  decide

theorem apply_single_hunk_success_parts (lines : List PyStr) (hunk : Hunk) (offset : Int)
    (hs : (apply_single_hunk lines hunk offset).1 = true) :
    ∃ pre post, (apply_single_hunk lines hunk offset).2.1
      = pre ++ ((split_hunk_lines hunk.lines).2).map (· ++ ['\n']) ++ post := by
  unfold apply_single_hunk at hs ⊢
  rcases hp : parse_hunk_header hunk.header with _ | parsed
  · rw [hp] at hs
    simp at hs
  · rw [hp] at hs
    rcases hsp : split_hunk_lines hunk.lines with ⟨ol, nl⟩
    rw [hsp] at hs
    dsimp only at hs ⊢
    split at hs
    · simp at hs
    · rename_i h1
      split at hs
      · simp at hs
      · rename_i h2
        rw [if_neg h1, if_neg h2]
        exact ⟨_, _, rfl⟩

/-! ## Claim C10: written lines carry exactly one newline -/

/-- C10 (implicit): every line that a successful `apply_single_hunk` writes
into the replaced region of the buffer — the new lines of any hunk produced
by `compute_hunks` — is terminated with exactly one `'\n'` character,
regardless of whether the corresponding source line carried a trailing
newline: the buffer after a successful application is the untouched prefix,
then the written lines (each the hunk's new text plus `"\n"`), each
satisfying `ends_with_single_nl`, then the untouched suffix. -/
theorem C10_written_lines_single_nl (p A B : PyStr) (hunk : Hunk)
    (hmem : hunk ∈ compute_hunks p A B) (lines : List PyStr) (offset : Int)
    (hs : (apply_single_hunk lines hunk offset).1 = true) :
    ∃ pre post, (apply_single_hunk lines hunk offset).2.1
        = pre ++ ((split_hunk_lines hunk.lines).2).map (· ++ ['\n']) ++ post
      ∧ ∀ w ∈ ((split_hunk_lines hunk.lines).2).map (· ++ ['\n']),
          ends_with_single_nl w = true := by
  obtain ⟨pre, post, heq⟩ := apply_single_hunk_success_parts lines hunk offset hs
  refine ⟨pre, post, heq, ?_⟩
  intro w hw
  obtain ⟨x, hx, rfl⟩ := List.mem_map.mp hw
  refine ends_with_single_nl_mk x ?_
  have hfree := compute_hunks_lines_nl_free p A B hunk hmem
  obtain ⟨l, hl, hor⟩ := split_hunk_lines_mem hunk.lines x (Or.inr hx)
  rcases hor with rfl | ⟨c, rfl⟩
  · exact hfree x hl
  · intro hmem'
    exact hfree (c :: x) hl (List.mem_cons_of_mem _ hmem')

theorem C10_written_lines_single_nl_witness :
    ((⟨0, "@@ -1 +1 @@".toList, ["-a".toList, "+b".toList], "Line 1".toList⟩ : Hunk)
        ∈ compute_hunks "f".toList "a\n".toList "b\n".toList)
    ∧ (apply_single_hunk ["a\n".toList]
        ⟨0, "@@ -1 +1 @@".toList, ["-a".toList, "+b".toList], "Line 1".toList⟩ 0).1 = true
    ∧ ∃ pre post, (apply_single_hunk ["a\n".toList]
          ⟨0, "@@ -1 +1 @@".toList, ["-a".toList, "+b".toList], "Line 1".toList⟩ 0).2.1
        = pre ++ ((split_hunk_lines
            (⟨0, "@@ -1 +1 @@".toList, ["-a".toList, "+b".toList],
              "Line 1".toList⟩ : Hunk).lines).2).map (· ++ ['\n']) ++ post
      ∧ ∀ w ∈ ((split_hunk_lines
            (⟨0, "@@ -1 +1 @@".toList, ["-a".toList, "+b".toList],
              "Line 1".toList⟩ : Hunk).lines).2).map (· ++ ['\n']),
          ends_with_single_nl w = true :=
  ⟨by decide, by decide,
    C10_written_lines_single_nl "f".toList "a\n".toList "b\n".toList _ (by decide)
      ["a\n".toList] 0 (by decide)⟩

/-! ## Claim C7: diffing a text with itself -/

theorem j2get_le (m : List (Nat × Nat)) (g : Nat → Nat)
    (h : ∀ e ∈ m, e.2 ≤ g e.1) (j : Nat) : j2get m j ≤ g j := by
  unfold j2get
  rcases hf : m.find? (fun e => e.1 == j) with _ | e
  · rw [hf]
    simp
  · rw [hf]
    have hmem := List.mem_of_find?_eq_some hf
    have hkey : e.1 = j := by simpa using List.find?_some hf
    simpa [hkey] using h e hmem

theorem j2get_cons_self (j k : Nat) (m : List (Nat × Nat)) :
    j2get ((j, k) :: m) j = k := by
  simp [j2get]

theorem j2get_cons_ne (j' k j : Nat) (m : List (Nat × Nat)) (h : j' ≠ j) :
    j2get ((j', k) :: m) j = j2get m j := by
  simp [j2get, List.find?_cons, h]

theorem RA_nonpop (a : List PyStr) (j : Nat) (h : get_b2j a (a.getD j []) ≠ []) :
    RA a j = (if j = 0 then 0 else RA a (j - 1)) + 1 := by
  cases j with
  | zero => rw [RA, if_neg h]; rfl
  | succ j => rw [RA, if_neg h]; rfl

theorem RA_pop (a : List PyStr) (j : Nat) (h : get_b2j a (a.getD j []) = []) :
    RA a j = 0 := by
  cases j with
  | zero => rw [RA, if_pos h]
  | succ j => rw [RA, if_pos h]

set_option maxHeartbeats 1000000 in
theorem process_row_self_inv (a : List PyStr) (i : Nat)
    (prev : List (Nat × Nat))
    (hnp : get_b2j a (a.getD i []) ≠ [])
    (hpc : ∀ e ∈ prev, e.2 ≤ RA a e.1)
    (hpr : ∀ e ∈ prev, e.2 ≤ (if i = 0 then 0 else RA a (i - 1)))
    (hpe : i ≠ 0 → j2get prev (i - 1) = RA a (i - 1)) :
    ∀ (js : List Nat) (acc : List (Nat × Nat)) (best : Nat × Nat × Nat),
      (∀ j ∈ js, a.getD j [] = a.getD i [] ∧ j < a.length) →
      js.Pairwise (· < ·) →
      best.1 = best.2.1 →
      (∀ t, t < i → RA a t ≤ best.2.2) →
      ((i ∈ js ∧ ∀ e ∈ acc, e.1 ≠ i) ∨
        ((∀ j ∈ js, j ≠ i) ∧ j2get acc i = RA a i ∧ RA a i ≤ best.2.2)) →
      (∀ e ∈ acc, e.2 ≤ RA a e.1 ∧ e.2 ≤ RA a i) →
      (∀ e ∈ (process_row 0 a.length prev i js acc best).1,
          e.2 ≤ RA a e.1 ∧ e.2 ≤ RA a i) ∧
      (process_row 0 a.length prev i js acc best).2.1
        = (process_row 0 a.length prev i js acc best).2.2.1 ∧
      (∀ t, t < i + 1 → RA a t ≤ (process_row 0 a.length prev i js acc best).2.2.2) ∧
      j2get (process_row 0 a.length prev i js acc best).1 i = RA a i := by
  have hRAi : RA a i = (if i = 0 then 0 else RA a (i - 1)) + 1 := RA_nonpop a i hnp
  intro js
  induction js with
  | nil =>
    intro acc best hjs hasc hdiag hdom hAB hacc
    rw [process_row]
    rcases hAB with ⟨hin, _⟩ | ⟨_, hget, hle⟩
    · cases hin
    · refine ⟨hacc, hdiag, ?_, hget⟩
      intro t ht
      rcases Nat.lt_succ_iff_lt_or_eq.mp ht with ht | rfl
      · exact hdom t ht
      · exact hle
  | cons j rest ih =>
    intro acc best hjs hasc hdiag hdom hAB hacc
    obtain ⟨hjeq, hjlt⟩ := hjs j (List.mem_cons_self _ _)
    have hkrow : (if j = 0 then 0 else j2get prev (j - 1)) + 1 ≤ RA a i := by
      have h1 : (if j = 0 then 0 else j2get prev (j - 1))
          ≤ (if i = 0 then 0 else RA a (i - 1)) := by
        split
        · exact Nat.zero_le _
        · exact le_trans (j2get_le prev (fun _ => if i = 0 then 0 else RA a (i - 1)) hpr (j - 1))
            (le_refl _)
      omega
    have hnpj : get_b2j a (a.getD j []) ≠ [] := by rw [hjeq]; exact hnp
    have hRAj := RA_nonpop a j hnpj
    have hkcol : (if j = 0 then 0 else j2get prev (j - 1)) + 1 ≤ RA a j := by
      have h1 : (if j = 0 then 0 else j2get prev (j - 1))
          ≤ (if j = 0 then 0 else RA a (j - 1)) := by
        split
        · exact Nat.le_refl 0
        · exact j2get_le prev (RA a) hpc (j - 1)
      omega
    rw [process_row, if_neg (Nat.not_lt_zero j), if_neg (by omega)]
    dsimp only
    have hrest_js := fun x hx => hjs x (List.mem_cons_of_mem _ hx)
    have hasc' := (List.pairwise_cons.mp hasc).2
    have hhead := (List.pairwise_cons.mp hasc).1
    by_cases hji : j = i
    · subst hji
      rcases hAB with ⟨hin, haccne⟩ | ⟨hne, _, _⟩
      · have hkexact : (if j = 0 then 0 else j2get prev (j - 1)) + 1 = RA a j := by
          by_cases hj0 : j = 0
          · rw [if_pos hj0, hRAi, if_pos hj0]
          · rw [if_neg hj0, hpe hj0, hRAi, if_neg hj0]
        have hne' : ∀ y ∈ rest, y ≠ j := fun y hy => Nat.ne_of_gt (hhead y hy)
        by_cases hup : best.2.2 < (if j = 0 then 0 else j2get prev (j - 1)) + 1
        · rw [if_pos hup]
          refine ih _ _ hrest_js hasc' rfl ?_ ?_ ?_
          · intro t ht
            have hd := hdom t ht
            show RA a t ≤ (if j = 0 then 0 else j2get prev (j - 1)) + 1
            omega
          · refine Or.inr ⟨hne', ?_, ?_⟩
            · rw [j2get_cons_self]
              exact hkexact
            · exact le_of_eq hkexact.symm
          · intro e he
            rcases List.mem_cons.mp he with rfl | he
            · exact ⟨le_of_eq hkexact, le_of_eq hkexact⟩
            · exact hacc e he
        · rw [if_neg hup]
          refine ih _ _ hrest_js hasc' hdiag hdom ?_ ?_
          · refine Or.inr ⟨hne', ?_, ?_⟩
            · rw [j2get_cons_self]
              exact hkexact
            · omega
          · intro e he
            rcases List.mem_cons.mp he with rfl | he
            · exact ⟨le_of_eq hkexact, le_of_eq hkexact⟩
            · exact hacc e he
      · exact absurd rfl (hne j (List.mem_cons_self _ _))
    · rcases hAB with ⟨hin, haccne⟩ | ⟨hne, hget, hle⟩
      · have hin' : i ∈ rest := by
          rcases List.mem_cons.mp hin with rfl | hin'
          · exact absurd rfl hji
          · exact hin'
        have hjlti : j < i := hhead i hin'
        have hnup : ¬ best.2.2 < (if j = 0 then 0 else j2get prev (j - 1)) + 1 := by
          have := hdom j hjlti
          omega
        rw [if_neg hnup]
        refine ih _ _ hrest_js hasc' hdiag hdom ?_ ?_
        · refine Or.inl ⟨hin', ?_⟩
          intro e he
          rcases List.mem_cons.mp he with rfl | he
          · exact hji
          · exact haccne e he
        · intro e he
          rcases List.mem_cons.mp he with rfl | he
          · exact ⟨hkcol, hkrow⟩
          · exact hacc e he
      · have hnup : ¬ best.2.2 < (if j = 0 then 0 else j2get prev (j - 1)) + 1 := by
          omega
        rw [if_neg hnup]
        refine ih _ _ hrest_js hasc' hdiag hdom ?_ ?_
        · refine Or.inr ⟨fun y hy => hne y (List.mem_cons_of_mem _ hy), ?_, hle⟩
          rw [j2get_cons_ne _ _ _ _ hji]
          exact hget
        · intro e he
          rcases List.mem_cons.mp he with rfl | he
          · exact ⟨hkcol, hkrow⟩
          · exact hacc e he

theorem get_b2j_mem (b : List PyStr) (x : PyStr) :
    ∀ j ∈ get_b2j b x, b.getD j [] = x ∧ j < b.length := by
  intro j hj
  unfold get_b2j at hj
  dsimp only at hj
  split at hj
  · cases hj
  · unfold indices_of at hj
    rw [List.mem_filter] at hj
    exact ⟨by simpa using hj.2, List.mem_range.mp hj.1⟩

theorem get_b2j_pairwise (b : List PyStr) (x : PyStr) :
    (get_b2j b x).Pairwise (· < ·) := by
  unfold get_b2j
  dsimp only
  split
  · exact List.Pairwise.nil
  · exact (List.pairwise_lt_range _).sublist (List.filter_sublist _)

theorem mem_own_b2j (a : List PyStr) (i : Nat) (h : i < a.length)
    (hnp : get_b2j a (a.getD i []) ≠ []) : i ∈ get_b2j a (a.getD i []) := by
  by_cases hc : 200 ≤ a.length ∧ a.length / 100 + 1 < (indices_of (a.getD i []) a).length
  · exact absurd (by unfold get_b2j; rw [if_pos hc]) hnp
  · unfold get_b2j
    rw [if_neg hc]
    unfold indices_of
    rw [List.mem_filter]
    exact ⟨List.mem_range.mpr h, by simp⟩

theorem dp_rows_self (a : List PyStr) :
    ∀ (n i₀ : Nat) (st : List (Nat × Nat) × (Nat × Nat × Nat)),
      i₀ + n ≤ a.length →
      (∀ e ∈ st.1, e.2 ≤ RA a e.1) →
      (∀ e ∈ st.1, e.2 ≤ (if i₀ = 0 then 0 else RA a (i₀ - 1))) →
      (i₀ ≠ 0 → j2get st.1 (i₀ - 1) = RA a (i₀ - 1)) →
      st.2.1 = st.2.2.1 →
      (∀ t, t < i₀ → RA a t ≤ st.2.2.2) →
      ((List.range' i₀ n).foldl
        (fun st i => process_row 0 a.length st.1 i (get_b2j a (a.getD i [])) [] st.2) st).2.1
        = ((List.range' i₀ n).foldl
            (fun st i => process_row 0 a.length st.1 i (get_b2j a (a.getD i [])) [] st.2)
            st).2.2.1 := by
  intro n
  induction n with
  | zero =>
    intro i₀ st _ _ _ _ hdiag _
    exact hdiag
  | succ n ih =>
    intro i₀ st hle hc hr he hdiag hdom
    rw [List.range'_succ, List.foldl_cons]
    have hi₀ : i₀ < a.length := by omega
    by_cases hpop : get_b2j a (a.getD i₀ []) = []
    · dsimp only
      rw [hpop, process_row]
      refine ih (i₀ + 1) ([], st.2) (by omega) ?_ ?_ ?_ hdiag ?_
      · intro e he
        cases he
      · intro e he
        cases he
      · intro h1
        show j2get [] i₀ = RA a i₀
        rw [RA_pop a i₀ hpop]
        rfl
      · intro t ht
        show RA a t ≤ st.2.2.2
        rcases Nat.lt_succ_iff_lt_or_eq.mp ht with ht | rfl
        · exact hdom t ht
        · rw [RA_pop a t hpop]
          exact Nat.zero_le _
    · dsimp only
      have hinv := process_row_self_inv a i₀ st.1 hpop hc hr he
        (get_b2j a (a.getD i₀ [])) [] st.2
        (get_b2j_mem a (a.getD i₀ []))
        (get_b2j_pairwise a (a.getD i₀ []))
        hdiag hdom
        (Or.inl ⟨mem_own_b2j a i₀ hi₀ hpop, fun e he => absurd he (List.not_mem_nil e)⟩)
        (fun e he => absurd he (List.not_mem_nil e))
      obtain ⟨hc', hdiag', hdom', hget'⟩ := hinv
      refine ih (i₀ + 1) _ (by omega) (fun e he => (hc' e he).1) ?_ ?_ hdiag'
        (fun t ht => hdom' t ht)
      · intro e he
        rw [if_neg (Nat.succ_ne_zero i₀)]
        exact (hc' e he).2
      · intro h1
        exact hget'

theorem ext_left_diag (a : List PyStr) :
    ∀ (d s : Nat), ext_left a a 0 0 d d s = (0, 0, s + d) := by
  intro d
  induction d with
  | zero => intro s; rfl
  | succ d ih =>
    intro s
    rw [ext_left, if_pos ⟨Nat.succ_pos d, Nat.succ_pos d, rfl⟩]
    show ext_left a a 0 0 d d (s + 1) = (0, 0, s + (d + 1))
    rw [ih (s + 1)]
    have h1 : s + 1 + d = s + (d + 1) := by omega
    rw [h1]

theorem ext_right_ge (a : List PyStr) :
    ∀ (fuel bs : Nat), a.length ≤ bs + fuel →
      a.length ≤ ext_right_aux a a a.length a.length 0 0 fuel bs := by
  intro fuel
  induction fuel with
  | zero =>
    intro bs h
    rw [ext_right_aux]
    omega
  | succ fuel ih =>
    intro bs h
    by_cases hb : bs < a.length
    · rw [ext_right_aux, if_pos ⟨by omega, by omega, rfl⟩]
      exact ih (bs + 1) (by omega)
    · rw [ext_right_aux, if_neg (by intro hc; exact hb (by have := hc.1; omega))]
      omega

theorem flm_self (a : List PyStr) :
    ∃ K, a.length ≤ K ∧ find_longest_match a a 0 a.length 0 a.length = (0, 0, K) := by
  have hdiag := dp_rows_self a a.length 0 ([], (0, 0, 0)) (by omega)
    (fun e he => absurd he (List.not_mem_nil e))
    (fun e he => absurd he (List.not_mem_nil e))
    (fun h => absurd rfl h) rfl (fun t ht => absurd ht (Nat.not_lt_zero t))
  unfold find_longest_match
  dsimp only
  rw [Nat.sub_zero]
  generalize hG : (List.range' 0 a.length).foldl
      (fun st i => process_row 0 a.length st.1 i (get_b2j a (a.getD i [])) [] st.2)
      ([], (0, 0, 0)) = G
  rw [hG] at hdiag
  rw [← hdiag, ext_left_diag a G.2.1 G.2.2.2]
  dsimp only
  refine ⟨_, ?_, rfl⟩
  unfold ext_right
  refine ext_right_ge a _ _ ?_
  omega

theorem matching_blocks_self (a : List PyStr) (h : a ≠ []) :
    ∃ K, a.length ≤ K ∧ 1 ≤ K
      ∧ get_matching_blocks a a = [(0, 0, K), (a.length, a.length, 0)] := by
  obtain ⟨K, hK, hflm⟩ := flm_self a
  have hla : 1 ≤ a.length := List.length_pos.mpr h
  refine ⟨K, hK, by omega, ?_⟩
  unfold get_matching_blocks
  dsimp only
  have hcb : collect_blocks a a (a.length + a.length + 1) 0 a.length 0 a.length
      = [(0, 0, K)] := by
    rw [collect_blocks, hflm]
    dsimp only
    rw [if_neg (by omega), if_neg (by simp), if_neg (by omega)]
    rfl
  rw [hcb]
  have hml : merge_loop 0 0 0 [(0, 0, K)] = [(0, 0, K)] := by
    rw [merge_loop, if_pos ⟨rfl, rfl⟩, merge_loop, if_pos (by omega)]
    norm_num
  rw [hml]
  rfl

theorem opcodes_self (a : List PyStr) (h : a ≠ []) :
    ∃ K, 1 ≤ K ∧ get_opcodes a a = [⟨.equal, 0, K, 0, K⟩] := by
  obtain ⟨K, hK, h1, hmb⟩ := matching_blocks_self a h
  refine ⟨K, h1, ?_⟩
  unfold get_opcodes
  rw [hmb, opcodes_loop]
  rw [if_neg (by simp), if_neg (by simp), if_neg (by simp), if_pos (by omega)]
  rw [opcodes_loop]
  rw [if_neg (by omega), if_neg (by omega), if_neg (by omega), if_neg (by simp)]
  rw [opcodes_loop]
  norm_num

theorem grouped_self (a : List PyStr) : get_grouped_opcodes a a 3 = [] := by
  by_cases h : a = []
  · subst h
    rfl
  · obtain ⟨K, h1, hoc⟩ := opcodes_self a h
    unfold get_grouped_opcodes
    dsimp only
    rw [hoc, if_neg (by simp)]
    rw [fix_head, if_pos rfl]
    dsimp only
    rw [fix_tail, if_pos rfl]
    dsimp only
    rw [group_codes, if_neg (by intro hc; have := hc.2; dsimp only at this; omega)]
    rw [List.nil_append, group_codes.eq_def]
    dsimp only
    rw [if_pos rfl]

theorem compute_hunks_self (p A : PyStr) : compute_hunks p A A = [] := by
  unfold compute_hunks unified_diff
  dsimp only
  rw [grouped_self (py_splitlines A), if_pos rfl]
  rfl

/-- C7: for every text `A`, `computeHunks(path, A, A)` returns the empty
hunk sequence; and `diff_file` on a file whose reference content equals its
printer content returns status `unchanged` with an empty hunk list and
empty unified-diff text. -/
theorem C7_self_unchanged (p A ref_path printer_path rc pc : PyStr)
    (hprot : is_protected ref_path = false) (heq : rc = pc) :
    compute_hunks p A A = []
    ∧ diff_file ref_path (some printer_path) (some rc) (some pc)
        = .unchanged [] [] := by
  constructor
  · exact compute_hunks_self p A
  · subst heq
    unfold diff_file
    rw [if_neg (by rw [hprot]; simp)]
    dsimp only
    rw [if_pos rfl]

theorem C7_self_unchanged_witness :
    is_protected "sys/a".toList = false
    ∧ "y".toList = "y".toList
    ∧ (compute_hunks "f".toList "x\n".toList "x\n".toList = []
      ∧ diff_file "sys/a".toList (some "0:/sys/a".toList)
          (some "y".toList) (some "y".toList) = .unchanged [] []) :=
  ⟨by decide, rfl,
    C7_self_unchanged "f".toList "x\n".toList "sys/a".toList "0:/sys/a".toList
      "y".toList "y".toList (by decide) rfl⟩

/-! ## Claim C1: decimal headers parse back -/

theorem digit_char_toNat (d : Nat) (h : d < 10) : (digit_char d).toNat = 48 + d := by
  interval_cases d <;> decide

theorem digit_char_digit (d : Nat) (h : d < 10) : is_ascii_digit (digit_char d) = true := by
  interval_cases d <;> decide

theorem digits_val_concat (l : List Char) (c : Char) :
    digits_val (l ++ [c]) = digits_val l * 10 + (c.toNat - 48) := by
  unfold digits_val
  rw [List.foldl_append]
  rfl

theorem nat_dec_repr_aux_spec :
    ∀ (fuel n : Nat), n / 10 ≤ fuel →
      digits_val (nat_dec_repr_aux fuel n) = n
      ∧ nat_dec_repr_aux fuel n ≠ []
      ∧ ∀ c ∈ nat_dec_repr_aux fuel n, is_ascii_digit c = true := by
  intro fuel
  induction fuel with
  | zero =>
    intro n h
    have hn : n < 10 := by omega
    rw [nat_dec_repr_aux]
    refine ⟨?_, by simp, ?_⟩
    · have : n % 10 = n := Nat.mod_eq_of_lt hn
      rw [this]
      show digits_val ([] ++ [digit_char n]) = n
      rw [digits_val_concat, digit_char_toNat n hn]
      show 0 * 10 + (48 + n - 48) = n
      omega
    · intro c hc
      rcases List.mem_singleton.mp hc with rfl
      exact digit_char_digit _ (Nat.mod_lt n (by omega))
  | succ fuel ih =>
    intro n h
    rw [nat_dec_repr_aux]
    by_cases hn : n < 10
    · rw [if_pos hn]
      refine ⟨?_, by simp, ?_⟩
      · show digits_val ([] ++ [digit_char n]) = n
        rw [digits_val_concat, digit_char_toNat n hn]
        show 0 * 10 + (48 + n - 48) = n
        omega
      · intro c hc
        rcases List.mem_singleton.mp hc with rfl
        exact digit_char_digit _ hn
    · rw [if_neg hn]
      obtain ⟨hv, hne, hdig⟩ := ih (n / 10) (by omega)
      refine ⟨?_, by simp, ?_⟩
      · rw [digits_val_concat, hv, digit_char_toNat _ (Nat.mod_lt n (by omega))]
        omega
      · intro c hc
        rcases List.mem_append.mp hc with hc | hc
        · exact hdig c hc
        · rcases List.mem_singleton.mp hc with rfl
          exact digit_char_digit _ (Nat.mod_lt n (by omega))

theorem nat_dec_repr_spec (n : Nat) :
    digits_val (nat_dec_repr n) = n
    ∧ nat_dec_repr n ≠ []
    ∧ ∀ c ∈ nat_dec_repr n, is_ascii_digit c = true :=
  nat_dec_repr_aux_spec n n (by omega)

theorem takeWhile_all_append (p : Char → Bool) (l1 : List Char) (c : Char) (rest : List Char)
    (h1 : ∀ x ∈ l1, p x = true) (hc : p c = false) :
    (l1 ++ c :: rest).takeWhile p = l1 ∧ (l1 ++ c :: rest).dropWhile p = c :: rest := by
  induction l1 with
  | nil =>
    constructor
    · rw [List.nil_append, List.takeWhile_cons, if_neg (by simp [hc])]
    · rw [List.nil_append, List.dropWhile_cons, if_neg (by simp [hc])]
  | cons x l1 ih =>
    obtain ⟨iht, ihd⟩ := ih (fun y hy => h1 y (List.mem_cons_of_mem _ hy))
    have hx := h1 x (List.mem_cons_self _ _)
    constructor
    · rw [List.cons_append, List.takeWhile_cons, if_pos (by simp [hx]), iht]
    · rw [List.cons_append, List.dropWhile_cons, if_pos (by simp [hx]), ihd]

theorem parse_nat_run_repr (n : Nat) (c : Char) (rest : PyStr)
    (hc : is_ascii_digit c = false) :
    parse_nat_run (nat_dec_repr n ++ c :: rest) = some (n, c :: rest) := by
  obtain ⟨hv, hne, hdig⟩ := nat_dec_repr_spec n
  obtain ⟨ht, hd⟩ := takeWhile_all_append is_ascii_digit (nat_dec_repr n) c rest hdig hc
  unfold parse_nat_run
  dsimp only
  rw [ht, hd, if_neg hne, hv]

theorem expect_lit_append (pat rest : PyStr) :
    expect_lit pat (pat ++ rest) = some rest := by
  unfold expect_lit
  rw [if_pos (by rw [List.isPrefixOf_iff_prefix]; exact List.prefix_append _ _)]
  rw [List.drop_left]

theorem parse_fr_chain (s e : Nat) (rest : PyStr) :
    ∃ v w s', parse_nat_run (format_range_unified s e ++ ' ' :: rest) = some (v, s')
      ∧ parse_opt_count s' = some (w, ' ' :: rest)
      ∧ (1 ≤ e - s → v = s + 1) := by
  unfold format_range_unified
  dsimp only
  by_cases h1 : e - s = 1
  · rw [if_pos h1]
    exact ⟨s + 1, 1, ' ' :: rest, parse_nat_run_repr _ _ _ (by decide), rfl, fun _ => rfl⟩
  · rw [if_neg h1, List.append_assoc, List.cons_append]
    refine ⟨_, e - s, _, parse_nat_run_repr _ ',' _ (by decide), ?_, ?_⟩
    · show parse_nat_run (nat_dec_repr (e - s) ++ ' ' :: rest) = _
      exact parse_nat_run_repr _ _ _ (by decide)
    · intro h2
      rw [if_neg (by omega)]

theorem parse_header_built (A1 A2 B1 B2 : Nat) (hA : A1 < A2) :
    ∃ oc ns nc, parse_hunk_header
        ("@@ -".toList ++ format_range_unified A1 A2 ++ " +".toList
          ++ format_range_unified B1 B2 ++ " @@".toList)
      = some ⟨A1 + 1, oc, ns, nc⟩ := by
  obtain ⟨v1, w1, s1, hp1, ho1, hv1⟩ :=
    parse_fr_chain A1 A2 ('+' :: (format_range_unified B1 B2 ++ ' ' :: ['@', '@']))
  obtain ⟨v2, w2, s2, hp2, ho2, _⟩ := parse_fr_chain B1 B2 ['@', '@']
  have hshape : "@@ -".toList ++ format_range_unified A1 A2 ++ " +".toList
        ++ format_range_unified B1 B2 ++ " @@".toList
      = "@@ -".toList ++ (format_range_unified A1 A2
        ++ ' ' :: ('+' :: (format_range_unified B1 B2 ++ ' ' :: ['@', '@']))) := by
    simp
  refine ⟨w1, v2, w2, ?_⟩
  rw [hshape]
  unfold parse_hunk_header
  rw [expect_lit_append]
  simp only [Option.pure_def, Option.bind_eq_bind, Option.some_bind, hp1, ho1]
  rw [show (' ' :: ('+' :: (format_range_unified B1 B2 ++ ' ' :: ['@', '@'])))
      = " +".toList ++ (format_range_unified B1 B2 ++ ' ' :: ['@', '@']) from rfl]
  rw [expect_lit_append]
  simp only [Option.some_bind, hp2, ho2]
  rw [show (' ' :: ['@', '@']) = " @@".toList ++ ([] : PyStr) from rfl]
  rw [expect_lit_append]
  simp only [Option.some_bind]
  rw [hv1 (by omega)]

theorem j2get_mem (m : List (Nat × Nat)) (j : Nat) (h : j2get m j ≠ 0) :
    (j, j2get m j) ∈ m := by
  unfold j2get at *
  rcases hf : m.find? (fun e => e.1 == j) with _ | e
  · rw [hf] at h
    simp at h
  · rw [hf] at h ⊢
    have hkey : e.1 = j := by simpa using List.find?_some hf
    have hmem := List.mem_of_find?_eq_some hf
    show (j, e.2) ∈ m
    rcases e with ⟨e1, e2⟩
    simp only at hkey
    subst hkey
    exact hmem

theorem j2get_nil (j : Nat) : j2get [] j = 0 := rfl

set_option maxHeartbeats 1000000 in
theorem process_row_valid (a b : List PyStr) (alo ahi blo bhi i : Nat)
    (hai : alo ≤ i) (hia : i < ahi)
    (prev : List (Nat × Nat))
    (hprev : ∀ e ∈ prev, EntryOK a b alo blo (i - 1) e)
    (hprev_i : prev = [] ∨ alo < i) :
    ∀ (js : List Nat) (acc : List (Nat × Nat)) (best : Nat × Nat × Nat),
      (∀ j ∈ js, b.getD j [] = a.getD i []) →
      BestOK a b alo ahi blo bhi best →
      (∀ e ∈ acc, EntryOK a b alo blo i e) →
      (∀ e ∈ (process_row blo bhi prev i js acc best).1, EntryOK a b alo blo i e)
      ∧ BestOK a b alo ahi blo bhi (process_row blo bhi prev i js acc best).2 := by
  intro js
  induction js with
  | nil =>
    intro acc best _ hbest hacc
    rw [process_row]
    exact ⟨hacc, hbest⟩
  | cons j rest ih =>
    intro acc best hjs hbest hacc
    rw [process_row]
    by_cases h1 : j < blo
    · rw [if_pos h1]
      exact ih _ _ (fun x hx => hjs x (List.mem_cons_of_mem _ hx)) hbest hacc
    · rw [if_neg h1]
      by_cases h2 : bhi ≤ j
      · rw [if_pos h2]
        exact ⟨hacc, hbest⟩
      · rw [if_neg h2]
        dsimp only
        have hbj := hjs j (List.mem_cons_self _ _)
        have hentry : EntryOK a b alo blo i
            (j, (if j = 0 then 0 else j2get prev (j - 1)) + 1) := by
          by_cases hj0 : j = 0
          · subst hj0
            rw [if_pos rfl]
            refine ⟨le_refl 1, by omega, by omega, hai, by omega, ?_⟩
            intro t ht
            interval_cases t
            simpa using hbj.symm
          · rw [if_neg hj0]
            by_cases hv : j2get prev (j - 1) = 0
            · rw [hv]
              refine ⟨le_refl 1, by omega, by omega, hai, by omega, ?_⟩
              intro t ht
              interval_cases t
              simpa using hbj.symm
            · have hm := j2get_mem prev (j - 1) hv
              have halo : alo < i := by
                rcases hprev_i with rfl | h
                · rw [j2get_nil] at hv
                  exact absurd rfl hv
                · exact h
              obtain ⟨h1e, h2e, h3e, h4e, h5e, h6e⟩ := hprev _ hm
              dsimp only at h1e h2e h3e h5e h6e
              refine ⟨by omega, by omega, by omega, hai, by omega, ?_⟩
              intro t ht
              rcases t with _ | t'
              · simpa using hbj.symm
              · rw [show i - (t' + 1) = (i - 1) - t' from by omega,
                  show j - (t' + 1) = (j - 1) - t' from by omega]
                exact h6e t' (by omega)
        by_cases hup : best.2.2 < (if j = 0 then 0 else j2get prev (j - 1)) + 1
        · rw [if_pos hup]
          refine ih _ _ (fun x hx => hjs x (List.mem_cons_of_mem _ hx)) ?_ ?_
          · obtain ⟨he1, he2, he3, he4, he5, he6⟩ := hentry
            dsimp only at he1 he2 he3 he5 he6
            refine ⟨?_, ?_, ?_, ?_, ?_⟩
            · show alo ≤ i + 1 - ((if j = 0 then 0 else j2get prev (j - 1)) + 1)
              omega
            · show i + 1 - ((if j = 0 then 0 else j2get prev (j - 1)) + 1)
                + ((if j = 0 then 0 else j2get prev (j - 1)) + 1) ≤ ahi
              omega
            · show blo ≤ j + 1 - ((if j = 0 then 0 else j2get prev (j - 1)) + 1)
              omega
            · show j + 1 - ((if j = 0 then 0 else j2get prev (j - 1)) + 1)
                + ((if j = 0 then 0 else j2get prev (j - 1)) + 1) ≤ bhi
              omega
            intro t ht
            have ht' : t < (if j = 0 then 0 else j2get prev (j - 1)) + 1 := ht
            dsimp only
            rw [show i + 1 - ((if j = 0 then 0 else j2get prev (j - 1)) + 1) + t
                = i - ((if j = 0 then 0 else j2get prev (j - 1)) + 1 - 1 - t) from by omega,
              show j + 1 - ((if j = 0 then 0 else j2get prev (j - 1)) + 1) + t
                = j - ((if j = 0 then 0 else j2get prev (j - 1)) + 1 - 1 - t) from by omega]
            exact he6 _ (by omega)

          · intro e he'
            rcases List.mem_cons.mp he' with rfl | he'
            · exact hentry
            · exact hacc e he'
        · rw [if_neg hup]
          refine ih _ _ (fun x hx => hjs x (List.mem_cons_of_mem _ hx)) hbest ?_
          intro e he'
          rcases List.mem_cons.mp he' with rfl | he'
          · exact hentry
          · exact hacc e he'

theorem dp_rows_valid (a b : List PyStr) (alo ahi blo bhi : Nat) :
    ∀ (n i₀ : Nat) (st : List (Nat × Nat) × (Nat × Nat × Nat)),
      alo ≤ i₀ → i₀ + n = ahi →
      (∀ e ∈ st.1, EntryOK a b alo blo (i₀ - 1) e) →
      (st.1 = [] ∨ alo < i₀) →
      BestOK a b alo ahi blo bhi st.2 →
      BestOK a b alo ahi blo bhi
        ((List.range' i₀ n).foldl
          (fun st i => process_row blo bhi st.1 i (get_b2j b (a.getD i [])) [] st.2) st).2 := by
  intro n
  induction n with
  | zero =>
    intro i₀ st _ _ _ _ hbest
    exact hbest
  | succ n ih =>
    intro i₀ st hlo hhi hprev hprev_i hbest
    rw [List.range'_succ, List.foldl_cons]
    obtain ⟨hacc', hbest'⟩ := process_row_valid a b alo ahi blo bhi i₀ hlo (by omega)
      st.1 hprev hprev_i (get_b2j b (a.getD i₀ []))
      [] st.2 (fun j hj => (get_b2j_mem b (a.getD i₀ []) j hj).1)
      hbest (fun e he => absurd he (List.not_mem_nil e))
    refine ih (i₀ + 1) _ (by omega) (by omega) ?_ (Or.inr (by omega)) hbest'
    intro e he
    exact hacc' e he

theorem ext_left_valid (a b : List PyStr) (alo ahi blo bhi : Nat) :
    ∀ (besti bestj bestsize : Nat),
      BestOK a b alo ahi blo bhi (besti, bestj, bestsize) →
      BestOK a b alo ahi blo bhi (ext_left a b alo blo besti bestj bestsize) := by
  intro besti
  induction besti with
  | zero =>
    intro bestj bestsize h
    rw [ext_left]
    exact h
  | succ d ih =>
    intro bestj bestsize h
    rw [ext_left]
    by_cases hc : alo < d + 1 ∧ blo < bestj ∧ a.getD (d + 1 - 1) [] = b.getD (bestj - 1) []
    · rw [if_pos hc]
      obtain ⟨hb1, hb2, hb3, hb4, hb5⟩ := h
      obtain ⟨hc1, hc2, hc3⟩ := hc
      dsimp only at hb1 hb2 hb3 hb4 hb5
      refine ih (bestj - 1) (bestsize + 1) ⟨?_, ?_, ?_, ?_, ?_⟩
      · show alo ≤ d
        omega
      · show d + (bestsize + 1) ≤ ahi
        omega
      · show blo ≤ bestj - 1
        omega
      · show bestj - 1 + (bestsize + 1) ≤ bhi
        omega
      intro t ht
      dsimp only at ht ⊢
      rcases t with _ | t'
      · simpa using hc3
      · rw [show d + (t' + 1) = d + 1 + t' from by omega,
          show bestj - 1 + (t' + 1) = bestj + t' from by omega]
        exact hb5 t' (by omega)
    · rw [if_neg hc]
      exact h

theorem ext_right_valid_aux (a b : List PyStr) (alo ahi blo bhi bi bj : Nat) :
    ∀ (fuel bs : Nat),
      BestOK a b alo ahi blo bhi (bi, bj, bs) →
      BestOK a b alo ahi blo bhi (bi, bj, ext_right_aux a b ahi bhi bi bj fuel bs) := by
  intro fuel
  induction fuel with
  | zero =>
    intro bs h
    rw [ext_right_aux]
    exact h
  | succ f ih =>
    intro bs h
    rw [ext_right_aux]
    by_cases hc : bi + bs < ahi ∧ bj + bs < bhi ∧ a.getD (bi + bs) [] = b.getD (bj + bs) []
    · rw [if_pos hc]
      obtain ⟨h1, h2, h3, h4, h5⟩ := h
      obtain ⟨c1, c2, c3⟩ := hc
      dsimp only at h1 h2 h3 h4 h5
      refine ih (bs + 1) ⟨h1, ?_, h3, ?_, ?_⟩
      · show bi + (bs + 1) ≤ ahi
        omega
      · show bj + (bs + 1) ≤ bhi
        omega
      intro t ht
      dsimp only at ht ⊢
      rcases Nat.lt_succ_iff_lt_or_eq.mp ht with ht | rfl
      · exact h5 t ht
      · exact c3
    · rw [if_neg hc]
      exact h

theorem flm_valid (a b : List PyStr) (alo ahi blo bhi : Nat)
    (h1 : alo ≤ ahi) (h2 : blo ≤ bhi) :
    BestOK a b alo ahi blo bhi (find_longest_match a b alo ahi blo bhi) := by
  have hdp := dp_rows_valid a b alo ahi blo bhi (ahi - alo) alo ([], (alo, blo, 0))
    (le_refl _) (by omega) (fun e he => absurd he (List.not_mem_nil e)) (Or.inl rfl)
    ⟨le_refl _, by dsimp only; omega, le_refl _, by dsimp only; omega,
      fun t ht => absurd ht (by dsimp only; omega)⟩
  unfold find_longest_match
  dsimp only
  generalize hG : (List.range' alo (ahi - alo)).foldl
      (fun st i => process_row blo bhi st.1 i (get_b2j b (a.getD i [])) [] st.2)
      ([], (alo, blo, 0)) = G
  rw [hG] at hdp
  have hel := ext_left_valid a b alo ahi blo bhi G.2.1 G.2.2.1 G.2.2.2 hdp
  unfold ext_right
  exact ext_right_valid_aux a b alo ahi blo bhi _ _ _ _ hel

theorem chain_weaken (a b : List PyStr) :
    ∀ (bs : List (Nat × Nat × Nat)) (loA loB hiA hiB loA' loB' hiA' hiB' : Nat),
      ChainOK a b loA loB hiA hiB bs →
      loA' ≤ loA → loB' ≤ loB → hiA ≤ hiA' → hiB ≤ hiB' →
      ChainOK a b loA' loB' hiA' hiB' bs := by
  intro bs
  induction bs with
  | nil =>
    intro _ _ _ _ _ _ _ _ _ _ _ _ _
    trivial
  | cons blk rest ih =>
    rcases blk with ⟨i, j, k⟩
    intro loA loB hiA hiB loA' loB' hiA' hiB' h hA hB hA' hB'
    obtain ⟨h1, h2, h3, h4, h5, h6, h7⟩ := h
    exact ⟨by omega, by omega, h3, by omega, by omega, h6,
      ih _ _ _ _ _ _ _ _ h7 (le_refl _) (le_refl _) hA' hB'⟩

theorem chain_append (a b : List PyStr) :
    ∀ (bs1 bs2 : List (Nat × Nat × Nat)) (loA loB mA mB hiA hiB : Nat),
      ChainOK a b loA loB mA mB bs1 →
      loA ≤ mA → loB ≤ mB → mA ≤ hiA → mB ≤ hiB →
      ChainOK a b mA mB hiA hiB bs2 →
      ChainOK a b loA loB hiA hiB (bs1 ++ bs2) := by
  intro bs1
  induction bs1 with
  | nil =>
    intro bs2 loA loB mA mB hiA hiB _ hA hB _ _ h2
    rw [List.nil_append]
    exact chain_weaken a b bs2 mA mB hiA hiB loA loB hiA hiB h2 hA hB (le_refl _) (le_refl _)
  | cons blk rest ih =>
    rcases blk with ⟨i, j, k⟩
    intro bs2 loA loB mA mB hiA hiB h1 hA hB hA' hB' h2
    obtain ⟨hc1, hc2, hc3, hc4, hc5, hc6, hc7⟩ := h1
    rw [List.cons_append]
    exact ⟨hc1, hc2, hc3, by omega, by omega, hc6,
      ih bs2 (i + k) (j + k) mA mB hiA hiB hc7 (by omega) (by omega) hA' hB' h2⟩

theorem collect_blocks_chain (a b : List PyStr) :
    ∀ (fuel alo ahi blo bhi : Nat), alo ≤ ahi → blo ≤ bhi →
      (ahi - alo) + (bhi - blo) < fuel →
      ChainOK a b alo blo ahi bhi (collect_blocks a b fuel alo ahi blo bhi) := by
  intro fuel
  induction fuel with
  | zero =>
    intro alo ahi blo bhi _ _ h3
    exact absurd h3 (by omega)
  | succ fuel ih =>
    intro alo ahi blo bhi h1 h2 h3
    rw [collect_blocks]
    obtain ⟨hb1, hb2, hb3, hb4, hb5⟩ := flm_valid a b alo ahi blo bhi h1 h2
    rcases hm : find_longest_match a b alo ahi blo bhi with ⟨bi, bj, k⟩
    rw [hm] at hb1 hb2 hb3 hb4 hb5
    dsimp only at hb1 hb2 hb3 hb4 hb5 ⊢
    by_cases hk : k = 0
    · rw [if_pos hk]
      trivial
    · rw [if_neg hk]
      have hmid : ChainOK a b bi bj ahi bhi ((bi, bj, k) ::
          (if bi + k < ahi ∧ bj + k < bhi then
            collect_blocks a b fuel (bi + k) ahi (bj + k) bhi else [])) := by
        refine ⟨le_refl _, le_refl _, by omega, hb2, hb4, hb5, ?_⟩
        by_cases hR : bi + k < ahi ∧ bj + k < bhi
        · rw [if_pos hR]
          exact ih (bi + k) ahi (bj + k) bhi (by omega) (by omega) (by omega)
        · rw [if_neg hR]
          trivial
      by_cases hL : alo < bi ∧ blo < bj
      · rw [if_pos hL]
        refine chain_append a b _ _ alo blo bi bj ahi bhi ?_ (by omega) (by omega)
          (by omega) (by omega) hmid
        exact ih alo bi blo bj (by omega) (by omega) (by omega)
      · rw [if_neg hL]
        rw [List.nil_append]
        exact chain_weaken a b _ bi bj ahi bhi alo blo ahi bhi hmid (by omega) (by omega)
          (le_refl _) (le_refl _)

theorem merge_ok (a b : List PyStr) (hiA hiB : Nat) :
    ∀ (bs : List (Nat × Nat × Nat)) (i1 j1 k1 loA loB : Nat),
      loA ≤ i1 → loB ≤ j1 → i1 + k1 ≤ hiA → j1 + k1 ≤ hiB →
      (∀ t, t < k1 → a.getD (i1 + t) [] = b.getD (j1 + t) []) →
      ChainOK a b (i1 + k1) (j1 + k1) hiA hiB bs →
      ChainOK a b loA loB hiA hiB (merge_loop i1 j1 k1 bs) := by
  intro bs
  induction bs with
  | nil =>
    intro i1 j1 k1 loA loB h1 h2 h3 h4 h5 _
    rw [merge_loop]
    by_cases hk : k1 ≠ 0
    · rw [if_pos hk]
      exact ⟨h1, h2, by omega, h3, h4, h5, trivial⟩
    · rw [if_neg hk]
      trivial
  | cons blk rest ih =>
    rcases blk with ⟨i2, j2, k2⟩
    intro i1 j1 k1 loA loB h1 h2 h3 h4 h5 hch
    obtain ⟨hc1, hc2, hc3, hc4, hc5, hc6, hc7⟩ := hch
    rw [merge_loop]
    by_cases hm : i1 + k1 = i2 ∧ j1 + k1 = j2
    · rw [if_pos hm]
      obtain ⟨hm1, hm2⟩ := hm
      refine ih i1 j1 (k1 + k2) loA loB h1 h2 (by omega) (by omega) ?_ ?_
      · intro t ht
        by_cases htk : t < k1
        · exact h5 t htk
        · rw [show i1 + t = i2 + (t - k1) from by omega,
            show j1 + t = j2 + (t - k1) from by omega]
          exact hc6 (t - k1) (by omega)
      · rw [show i1 + (k1 + k2) = i2 + k2 from by omega,
          show j1 + (k1 + k2) = j2 + k2 from by omega]
        exact hc7
    · rw [if_neg hm]
      by_cases hk : k1 ≠ 0
      · rw [if_pos hk]
        show ChainOK a b loA loB hiA hiB ((i1, j1, k1) :: merge_loop i2 j2 k2 rest)
        refine ⟨h1, h2, by omega, h3, h4, h5, ?_⟩
        exact ih i2 j2 k2 (i1 + k1) (j1 + k1) hc1 hc2 hc4 hc5 hc6 hc7
      · rw [if_neg hk]
        show ChainOK a b loA loB hiA hiB (merge_loop i2 j2 k2 rest)
        exact ih i2 j2 k2 loA loB (by omega) (by omega) hc4 hc5 hc6 hc7

theorem matching_blocks_ok (a b : List PyStr) :
    ∃ bs, get_matching_blocks a b = bs ++ [(a.length, b.length, 0)]
      ∧ ChainOK a b 0 0 a.length b.length bs := by
  unfold get_matching_blocks
  dsimp only
  refine ⟨_, rfl, ?_⟩
  refine merge_ok a b _ _ _ 0 0 0 0 0 (le_refl _) (le_refl _) (by omega) (by omega)
    (fun t ht => absurd ht (by omega)) ?_
  exact collect_blocks_chain a b _ 0 _ 0 _ (by omega) (by omega) (by omega)

theorem nat_slice_eq_of_getD (a b : List PyStr) (i1 j1 k : Nat)
    (hi : i1 + k ≤ a.length) (hj : j1 + k ≤ b.length)
    (h : ∀ t, t < k → a.getD (i1 + t) [] = b.getD (j1 + t) []) :
    nat_slice a i1 (i1 + k) = nat_slice b j1 (j1 + k) := by
  apply List.ext_getElem
  · unfold nat_slice
    rw [List.length_drop, List.length_take, List.length_drop, List.length_take]
    omega
  · intro n h1 h2
    unfold nat_slice at h1 h2 ⊢
    rw [List.length_drop, List.length_take] at h1 h2
    rw [List.getElem_drop, List.getElem_take, List.getElem_drop, List.getElem_take]
    have hd := h n (by omega)
    rw [List.getD_eq_getElem a [] (by omega : i1 + n < a.length),
      List.getD_eq_getElem b [] (by omega : j1 + n < b.length)] at hd
    exact hd

theorem alt_cons_equal (c : Opcode) (rest : List Opcode) (hc : c.tag = .equal)
    (h : AltOK rest) : AltOK (c :: rest) := by
  cases rest with
  | nil => trivial
  | cons c2 r => exact ⟨Or.inl hc, h⟩

theorem alt_cons_before (c1 c2 : Opcode) (rest : List Opcode) (hc : c2.tag = .equal)
    (h : AltOK (c2 :: rest)) : AltOK (c1 :: c2 :: rest) :=
  ⟨Or.inr hc, h⟩

set_option maxHeartbeats 1000000 in
theorem opcodes_ok (a b : List PyStr) :
    ∀ (bs : List (Nat × Nat × Nat)) (i j : Nat),
      ChainOK a b i j a.length b.length bs → i ≤ a.length → j ≤ b.length →
      OpsOK a b i j (opcodes_loop i j (bs ++ [(a.length, b.length, 0)]))
      ∧ AltOK (opcodes_loop i j (bs ++ [(a.length, b.length, 0)])) := by
  intro bs
  induction bs with
  | nil =>
    intro i j _ hi hj
    rw [List.nil_append, opcodes_loop, opcodes_loop]
    rw [if_neg (show ¬((0 : Nat) ≠ 0) by simp), List.append_nil]
    by_cases h1 : i < a.length ∧ j < b.length
    · rw [if_pos h1]
      exact ⟨⟨rfl, rfl, h1, rfl, rfl⟩, trivial⟩
    · rw [if_neg h1]
      by_cases h2 : i < a.length
      · rw [if_pos h2]
        exact ⟨⟨rfl, rfl, (⟨by omega, h2⟩ : j = b.length ∧ i < a.length),
          rfl, rfl⟩, trivial⟩
      · rw [if_neg h2]
        by_cases h3 : j < b.length
        · rw [if_pos h3]
          exact ⟨⟨rfl, rfl, (⟨by omega, h3⟩ : i = a.length ∧ j < b.length),
            rfl, rfl⟩, trivial⟩
        · rw [if_neg h3]
          exact ⟨⟨by omega, by omega⟩, trivial⟩
  | cons blk rest ih =>
    rcases blk with ⟨bi, bj, k⟩
    intro i j hch hi hj
    obtain ⟨h1, h2, h3, h4, h5, h6, h7⟩ := hch
    rw [List.cons_append, opcodes_loop]
    obtain ⟨iho, iha⟩ := ih (bi + k) (bj + k) h7 (by omega) (by omega)
    rw [if_pos (show k ≠ 0 by omega)]
    have hTeq : TagOK a b ⟨.equal, bi, bi + k, bj, bj + k⟩ := by
      show bi < bi + k ∧ (bi + k) - bi = (bj + k) - bj
        ∧ nat_slice a bi (bi + k) = nat_slice b bj (bj + k)
      exact ⟨by omega, by omega, nat_slice_eq_of_getD a b bi bj k h4 h5 h6⟩
    by_cases hg : i < bi ∧ j < bj
    · rw [if_pos hg]
      refine ⟨⟨rfl, rfl, hg, rfl, rfl, hTeq, iho⟩, ?_⟩
      exact alt_cons_before _ _ _ rfl (alt_cons_equal _ _ rfl iha)
    · rw [if_neg hg]
      by_cases hd : i < bi
      · rw [if_pos hd]
        refine ⟨⟨rfl, rfl, (⟨by omega, hd⟩ : j = bj ∧ i < bi), rfl, rfl, hTeq, iho⟩, ?_⟩
        exact alt_cons_before _ _ _ rfl (alt_cons_equal _ _ rfl iha)
      · rw [if_neg hd]
        by_cases hins : j < bj
        · rw [if_pos hins]
          refine ⟨⟨rfl, rfl, (⟨by omega, hins⟩ : i = bi ∧ j < bj),
            rfl, rfl, hTeq, iho⟩, ?_⟩
          exact alt_cons_before _ _ _ rfl (alt_cons_equal _ _ rfl iha)
        · rw [if_neg hins]
          rw [List.nil_append]
          refine ⟨⟨(by omega : bi = i), (by omega : bj = j), hTeq, iho⟩, ?_⟩
          exact alt_cons_equal _ _ rfl iha

theorem get_opcodes_ok (a b : List PyStr) :
    OpsOK a b 0 0 (get_opcodes a b) ∧ AltOK (get_opcodes a b) := by
  obtain ⟨bs, hmb, hch⟩ := matching_blocks_ok a b
  unfold get_opcodes
  rw [hmb]
  exact opcodes_ok a b bs 0 0 hch (by omega) (by omega)

theorem nat_slice_self (l : List PyStr) (x : Nat) : nat_slice l x x = [] := by
  unfold nat_slice
  exact List.drop_eq_nil_of_le (by rw [List.length_take]; omega)

theorem nat_slice_drop (l : List PyStr) (i1 i2 d : Nat) :
    nat_slice l (i1 + d) i2 = (nat_slice l i1 i2).drop d := by
  unfold nat_slice
  rw [List.drop_drop]

theorem nat_slice_take (l : List PyStr) (i1 x i2 : Nat) (h1 : i1 ≤ x) (h2 : x ≤ i2) :
    nat_slice l i1 x = (nat_slice l i1 i2).take (x - i1) := by
  unfold nat_slice
  simp only [List.drop_take]
  rw [List.take_take, min_eq_left (by omega)]

theorem drop_decompose (l : List PyStr) (x y : Nat) (hxy : x ≤ y) (hx : x ≤ l.length) :
    l.drop x = nat_slice l x y ++ l.drop y := by
  unfold nat_slice
  conv_lhs => rw [← List.take_append_drop y l]
  rw [List.drop_append_of_le_length (by rw [List.length_take]; omega)]

theorem nat_slice_to_end (l : List PyStr) (x : Nat) :
    nat_slice l x l.length = l.drop x := by
  unfold nat_slice
  rw [List.take_length]

theorem TagOK_mono (a b : List PyStr) (c : Opcode) (h : TagOK a b c) :
    c.i1 ≤ c.i2 ∧ c.j1 ≤ c.j2 := by
  unfold TagOK at h
  rcases htag : c.tag with _ | _ | _ | _
  all_goals rw [htag] at h
  · exact ⟨by omega, by omega⟩
  · exact ⟨by omega, by omega⟩
  · exact ⟨by omega, by omega⟩
  · obtain ⟨h1, h2, h3⟩ := h
    have hlen := congrArg List.length h3
    unfold nat_slice at hlen
    rw [List.length_drop, List.length_take, List.length_drop, List.length_take] at hlen
    exact ⟨by omega, by omega⟩

theorem tile_mono (a b : List PyStr) :
    ∀ (ops : List Opcode) (i j iE jE : Nat),
      GroupTile a b i j ops iE jE → i ≤ iE ∧ j ≤ jE := by
  intro ops
  induction ops with
  | nil =>
    intro i j iE jE h
    obtain ⟨h1, h2⟩ := h
    omega
  | cons c rest ih =>
    intro i j iE jE h
    obtain ⟨h1, h2, h3, h4⟩ := h
    obtain ⟨m1, m2⟩ := TagOK_mono a b c h3
    obtain ⟨r1, r2⟩ := ih _ _ _ _ h4
    omega

theorem tile_append (a b : List PyStr) :
    ∀ (l1 l2 : List Opcode) (i j m1 m2 iE jE : Nat),
      GroupTile a b i j l1 m1 m2 → GroupTile a b m1 m2 l2 iE jE →
      GroupTile a b i j (l1 ++ l2) iE jE := by
  intro l1
  induction l1 with
  | nil =>
    intro l2 i j m1 m2 iE jE h1 h2
    obtain ⟨rfl, rfl⟩ := h1
    exact h2
  | cons c rest ih =>
    intro l2 i j m1 m2 iE jE h1 h2
    obtain ⟨hc1, hc2, hc3, hc4⟩ := h1
    exact ⟨hc1, hc2, hc3, ih _ _ _ _ _ _ _ hc4 h2⟩

theorem getLastD_concat (l : List Opcode) (x d : Opcode) : (l ++ [x]).getLastD d = x := by
  rw [List.getLastD_eq_getLast?, List.getLast?_concat]
  rfl

theorem headD_append_of_ne (l x : List Opcode) (d : Opcode) (h : l ≠ []) :
    (l ++ x).headD d = l.headD d := by
  cases l with
  | nil => exact absurd rfl h
  | cons c t => rfl

theorem alt_tail (c : Opcode) (rest : List Opcode) (h : AltOK (c :: rest)) : AltOK rest := by
  cases rest with
  | nil => trivial
  | cons c2 t => exact h.2

theorem ops_to_tile (a b : List PyStr) :
    ∀ (ops : List Opcode) (i j : Nat),
      OpsOK a b i j ops → GroupTile a b i j ops a.length b.length := by
  intro ops
  induction ops with
  | nil =>
    intro i j h
    exact h
  | cons c rest ih =>
    intro i j h
    exact ⟨h.1, h.2.1, h.2.2.1, ih _ _ h.2.2.2⟩

theorem AltOK_of_tags_eq : ∀ (l1 l2 : List Opcode),
    l1.map (·.tag) = l2.map (·.tag) → AltOK l1 → AltOK l2 := by
  intro l1
  induction l1 with
  | nil =>
    intro l2 h _
    cases l2 with
    | nil => trivial
    | cons c t => simp at h
  | cons c1 t1 ih =>
    intro l2 h ha
    cases l2 with
    | nil => trivial
    | cons c2 t2 =>
      simp only [List.map_cons, List.cons.injEq] at h
      obtain ⟨hh, ht⟩ := h
      cases t1 with
      | nil =>
        cases t2 with
        | nil => trivial
        | cons d2 s2 => simp at ht
      | cons d1 s1 =>
        cases t2 with
        | nil => trivial
        | cons d2 s2 =>
          obtain ⟨haor, harest⟩ := ha
          refine ⟨?_, ih (d2 :: s2) ht harest⟩
          have ht1 : d1.tag = d2.tag := by
            simp only [List.map_cons, List.cons.injEq] at ht
            exact ht.1
          rcases haor with h | h
          · exact Or.inl (hh ▸ h)
          · exact Or.inr (ht1 ▸ h)

theorem fix_head_tags (n : Nat) (codes : List Opcode) :
    (fix_head n codes).map (·.tag) = codes.map (·.tag) := by
  cases codes with
  | nil => rfl
  | cons c rest =>
    rw [fix_head]
    split
    · rfl
    · rfl

theorem fix_tail_tags (n : Nat) : ∀ (codes : List Opcode),
    (fix_tail n codes).map (·.tag) = codes.map (·.tag) := by
  intro codes
  induction codes with
  | nil => rfl
  | cons c rest ih =>
    cases rest with
    | nil =>
      rw [fix_tail]
      split
      · rfl
      · rfl
    | cons c2 t =>
      rw [fix_tail, List.map_cons, List.map_cons, ih]
      simp

set_option maxHeartbeats 1000000 in
theorem fix_head_ok (a b : List PyStr) (n : Nat) (hn : 1 ≤ n) (codes : List Opcode)
    (hne : codes ≠ []) (ht : GroupTile a b 0 0 codes a.length b.length) :
    ∃ s0, GroupTile a b s0 s0 (fix_head n codes) a.length b.length
      ∧ nat_slice a 0 s0 = nat_slice b 0 s0
      ∧ fix_head n codes ≠ []
      ∧ (s0 = 0 ∨ ∃ c cs, fix_head n codes = c :: cs ∧ c.tag = .equal) := by
  cases codes with
  | nil => exact absurd rfl hne
  | cons c rest =>
    rcases c with ⟨tag, i1, i2, j1, j2⟩
    obtain ⟨hc1, hc2, hc3, hc4⟩ := ht
    dsimp only at hc1 hc2 hc4
    subst hc1
    subst hc2
    rw [fix_head]
    by_cases he : tag = .equal
    · rw [if_pos (show Opcode.tag ⟨tag, 0, i2, 0, j2⟩ = .equal from he)]
      subst he
      have hc3' : 0 < i2 ∧ i2 - 0 = j2 - 0 ∧ nat_slice a 0 i2 = nat_slice b 0 j2 := hc3
      obtain ⟨hlt, hspan, hslice⟩ := hc3'
      have hj2 : j2 = i2 := by omega
      subst hj2
      dsimp only
      simp only [Nat.zero_max]
      refine ⟨j2 - n, ?_, ?_, by simp, Or.inr ⟨_, _, rfl, rfl⟩⟩
      · refine ⟨rfl, rfl, ?_, hc4⟩
        show j2 - n < j2 ∧ j2 - (j2 - n) = j2 - (j2 - n)
          ∧ nat_slice a (j2 - n) j2 = nat_slice b (j2 - n) j2
        refine ⟨by omega, rfl, ?_⟩
        rw [show nat_slice a (j2 - n) j2 = nat_slice a (0 + (j2 - n)) j2 from by norm_num,
          show nat_slice b (j2 - n) j2 = nat_slice b (0 + (j2 - n)) j2 from by norm_num,
          nat_slice_drop, nat_slice_drop, hslice]
      · rw [nat_slice_take a 0 (j2 - n) j2 (by omega) (by omega),
          nat_slice_take b 0 (j2 - n) j2 (by omega) (by omega), hslice]
    · rw [if_neg (show ¬ Opcode.tag ⟨tag, 0, i2, 0, j2⟩ = .equal from he)]
      refine ⟨0, ⟨rfl, rfl, hc3, hc4⟩, by rw [nat_slice_self, nat_slice_self], by simp,
        Or.inl rfl⟩

set_option maxHeartbeats 1000000 in
theorem fix_tail_ok (a b : List PyStr) (n : Nat) (hn : 1 ≤ n) (ha : a ≠ []) :
    ∀ (codes : List Opcode) (s0A s0B : Nat), codes ≠ [] →
      GroupTile a b s0A s0B codes a.length b.length →
      ∃ eA eB, GroupTile a b s0A s0B (fix_tail n codes) eA eB
        ∧ a.drop eA = b.drop eB
        ∧ eA ≤ a.length ∧ eB ≤ b.length ∧ 1 ≤ eA
        ∧ fix_tail n codes ≠ [] := by
  have hla : 1 ≤ a.length := List.length_pos.mpr ha
  intro codes
  induction codes with
  | nil => intro s0A s0B hne _; exact absurd rfl hne
  | cons c rest ih =>
    intro s0A s0B _ ht
    cases rest with
    | nil =>
      rcases c with ⟨tag, i1, i2, j1, j2⟩
      obtain ⟨hc1, hc2, hc3, hc4⟩ := ht
      obtain ⟨hc5, hc6⟩ := hc4
      dsimp only at hc1 hc2 hc5 hc6
      subst hc1
      subst hc2
      subst hc5
      subst hc6
      rw [fix_tail]
      by_cases he : tag = .equal
      · rw [if_pos (show Opcode.tag ⟨tag, i1, a.length, j1, b.length⟩ = .equal from he)]
        subst he
        have hc3' : i1 < a.length ∧ a.length - i1 = b.length - j1
            ∧ nat_slice a i1 a.length = nat_slice b j1 b.length := hc3
        obtain ⟨hlt, hspan, hslice⟩ := hc3'
        dsimp only
        refine ⟨min a.length (i1 + n), min b.length (j1 + n), ?_, ?_, by omega, by omega,
          by omega, by simp⟩
        · refine ⟨rfl, rfl, ?_, rfl, rfl⟩
          show i1 < min a.length (i1 + n)
            ∧ min a.length (i1 + n) - i1 = min b.length (j1 + n) - j1
            ∧ nat_slice a i1 (min a.length (i1 + n))
              = nat_slice b j1 (min b.length (j1 + n))
          refine ⟨by omega, by omega, ?_⟩
          rw [nat_slice_take a i1 (min a.length (i1 + n)) a.length (by omega) (by omega),
            nat_slice_take b j1 (min b.length (j1 + n)) b.length (by omega) (by omega),
            hslice, show min a.length (i1 + n) - i1 = min b.length (j1 + n) - j1
              from by omega]
        · rw [← nat_slice_to_end a _, ← nat_slice_to_end b _]
          rw [show nat_slice a (min a.length (i1 + n)) a.length
              = nat_slice a (i1 + (min a.length (i1 + n) - i1)) a.length from by
                congr 1; omega,
            show nat_slice b (min b.length (j1 + n)) b.length
              = nat_slice b (j1 + (min b.length (j1 + n) - j1)) b.length from by
                congr 1; omega,
            nat_slice_drop, nat_slice_drop, hslice,
            show min a.length (i1 + n) - i1 = min b.length (j1 + n) - j1 from by omega]
      · rw [if_neg (show ¬ Opcode.tag ⟨tag, i1, a.length, j1, b.length⟩ = .equal from he)]
        refine ⟨a.length, b.length, ⟨rfl, rfl, hc3, rfl, rfl⟩, ?_, le_refl _, le_refl _,
          by omega, by simp⟩
        rw [List.drop_length, List.drop_length]
    | cons c2 t =>
      obtain ⟨hc1, hc2, hc3, hc4⟩ := ht
      obtain ⟨eA, eB, ih1, ih2, ih3, ih4, ih5, ih6⟩ := ih _ _ (by simp) hc4
      rw [fix_tail]
      · exact ⟨eA, eB, ⟨hc1, hc2, hc3, ih1⟩, ih2, ih3, ih4, ih5, by simp⟩
      · simp

theorem fixes_ok (a b : List PyStr) (ha : a ≠ []) (codes : List Opcode)
    (hne : codes ≠ []) (hops : OpsOK a b 0 0 codes) (halt : AltOK codes) :
    ∃ s0 eA eB,
      GroupTile a b s0 s0 (fix_tail 3 (fix_head 3 codes)) eA eB
      ∧ AltOK (fix_tail 3 (fix_head 3 codes))
      ∧ fix_tail 3 (fix_head 3 codes) ≠ []
      ∧ nat_slice a 0 s0 = nat_slice b 0 s0
      ∧ a.drop eA = b.drop eB
      ∧ eA ≤ a.length ∧ eB ≤ b.length ∧ 1 ≤ eA
      ∧ (s0 = 0 ∨ ∃ c cs, fix_tail 3 (fix_head 3 codes) = c :: cs ∧ c.tag = .equal) := by
  obtain ⟨s0, ht1, hgap1, hne1, hhead1⟩ :=
    fix_head_ok a b 3 (by omega) codes hne (ops_to_tile a b codes 0 0 hops)
  obtain ⟨eA, eB, ht2, hgap2, heA, heB, h1A, hne2⟩ :=
    fix_tail_ok a b 3 (by omega) ha (fix_head 3 codes) s0 s0 hne1 ht1
  refine ⟨s0, eA, eB, ht2, ?_, hne2, hgap1, hgap2, heA, heB, h1A, ?_⟩
  · refine AltOK_of_tags_eq codes _ ?_ halt
    rw [fix_tail_tags, fix_head_tags]
  · rcases hhead1 with h0 | ⟨c, cs, hcs, htag⟩
    · exact Or.inl h0
    · right
      have htags := fix_tail_tags 3 (fix_head 3 codes)
      cases hft : fix_tail 3 (fix_head 3 codes) with
      | nil => exact absurd hft hne2
      | cons c2 cs2 =>
        rw [hft, hcs, List.map_cons, List.map_cons, List.cons.injEq] at htags
        refine ⟨c2, cs2, rfl, ?_⟩
        rw [htags.1, htag]

theorem TagOK_cases (a b : List PyStr) (c : Opcode) (h : TagOK a b c) :
    c.i1 < c.i2 ∨ c.i1 = c.i2 := by
  unfold TagOK at h
  rcases htag : c.tag with _ | _ | _ | _
  all_goals rw [htag] at h
  · exact Or.inl h.1
  · exact Or.inl h.2
  · exact Or.inr h.1
  · exact Or.inl h.1

set_option maxHeartbeats 2000000 in
theorem group_codes_ok (a b : List PyStr) (n : Nat) (hn : 1 ≤ n) :
    ∀ (codes grp : List Opcode) (pA pB curA curB gA1 gB1 eA eB : Nat),
      GroupTile a b curA curB codes eA eB →
      AltOK codes →
      a.drop eA = b.drop eB →
      eA ≤ a.length → eB ≤ b.length → 1 ≤ eA →
      ((grp = [] ∧ pA ≤ curA ∧ pB ≤ curB ∧ curA - pA = curB - pB
          ∧ nat_slice a pA curA = nat_slice b pB curB
          ∧ (curA = 0 ∨ ∃ c cs, codes = c :: cs ∧ c.tag = .equal))
        ∨ (grp ≠ [] ∧ pA ≤ gA1 ∧ pB ≤ gB1 ∧ gA1 - pA = gB1 - pB
            ∧ nat_slice a pA gA1 = nat_slice b pB gB1
            ∧ GroupTile a b gA1 gB1 grp curA curB
            ∧ (gA1 < curA ∨ (gA1 = 0 ∧ curA = 0))
            ∧ (grp.headD default).i1 = gA1 ∧ (grp.headD default).j1 = gB1
            ∧ (grp.getLastD default).i2 = curA ∧ (grp.getLastD default).j2 = curB)) →
      GroupsOK a b pA pB (group_codes n codes grp) := by
  intro codes
  induction codes with
  | nil =>
    intro grp pA pB curA curB gA1 gB1 eA eB htile _ hdrop heA heB h1A hst
    obtain ⟨hcur1, hcur2⟩ := htile
    rw [group_codes.eq_def]
    dsimp only
    rcases hst with ⟨rfl, hp1, hp2, hp3, hp4, _⟩ |
      ⟨hgne, h2, h3, h4, h5, h6, h7, h8, h9, h10, h11⟩
    · show a.drop pA = b.drop pB
      rw [drop_decompose a pA curA hp1 (by omega),
        drop_decompose b pB curB hp2 (by omega), hp4]
      congr 1
      rw [hcur1, hcur2]
      exact hdrop
    · have hspanA : gA1 < curA := by
        rcases h7 with h7 | ⟨_, h7⟩
        · exact h7
        · omega
      obtain ⟨hm1, hm2⟩ := tile_mono a b grp gA1 gB1 curA curB h6
      cases grp with
      | nil => exact absurd rfl hgne
      | cons c1 rest =>
        cases rest with
        | nil =>
          dsimp only
          by_cases he : c1.tag = .equal
          · rw [if_pos he]
            show a.drop pA = b.drop pB
            obtain ⟨ht1, ht2, ht3, ht4, ht5⟩ := h6
            have hTe := ht3
            unfold TagOK at hTe
            rw [he] at hTe
            obtain ⟨hlt, hspan, hslice⟩ := hTe
            rw [drop_decompose a pA gA1 h2 (by omega),
              drop_decompose b pB gB1 h3 (by omega), h5]
            congr 1
            rw [drop_decompose a gA1 curA (by omega) (by omega),
              drop_decompose b gB1 curB (by omega) (by omega)]
            have hsl2 : nat_slice a gA1 curA = nat_slice b gB1 curB := by
              rw [← ht1, ← ht2, ← ht4, ← ht5]
              exact hslice
            rw [hsl2, hcur1, hcur2, hdrop]
          · rw [if_neg he]
            refine ⟨curA, curB, ?_, ?_, ?_, ?_, by simp, ?_, ?_, by omega, by omega,
              h10, h11, ?_⟩
            · rw [h8]
              exact h2
            · rw [h9]
              exact h3
            · rw [h8, h9]
              exact h4
            · rw [h8, h9]
              exact h5
            · rw [h8, h9]
              exact h6
            · rw [h8]
              exact hspanA
            · show a.drop curA = b.drop curB
              rw [hcur1, hcur2]
              exact hdrop
        | cons c2 rest2 =>
          dsimp only
          refine ⟨curA, curB, ?_, ?_, ?_, ?_, by simp, ?_, ?_, by omega, by omega,
            h10, h11, ?_⟩
          · rw [h8]
            exact h2
          · rw [h9]
            exact h3
          · rw [h8, h9]
            exact h4
          · rw [h8, h9]
            exact h5
          · rw [h8, h9]
            exact h6
          · rw [h8]
            exact hspanA
          · show a.drop curA = b.drop curB
            rw [hcur1, hcur2]
            exact hdrop
  | cons c rest ih =>
    intro grp pA pB curA curB gA1 gB1 eA eB htile halt hdrop heA heB h1A hst
    obtain ⟨hc1, hc2, hc3, hc4⟩ := htile
    obtain ⟨hrm1, hrm2⟩ := tile_mono a b rest c.i2 c.j2 eA eB hc4
    obtain ⟨hcm1, hcm2⟩ := TagOK_mono a b c hc3
    rw [group_codes]
    by_cases hsplit : c.tag = .equal ∧ n + n < c.i2 - c.i1
    · rw [if_pos hsplit]
      obtain ⟨he, hbig⟩ := hsplit
      have hTe := hc3
      unfold TagOK at hTe
      rw [he] at hTe
      obtain ⟨hlt, hspan, hslice⟩ := hTe
      have hjlt : c.j1 < c.j2 := by omega
      have hcT : TagOK a b { c with i2 := min c.i2 (c.i1 + n), j2 := min c.j2 (c.j1 + n) } := by
        unfold TagOK
        rcases hcc : c with ⟨tag, i1, i2, j1, j2⟩
        rw [hcc] at he hlt hspan hslice hbig
        subst he
        dsimp only at hlt hspan hslice hbig ⊢
        refine ⟨by omega, by omega, ?_⟩
        rw [nat_slice_take a i1 (min i2 (i1 + n)) i2 (by omega) (by omega),
          nat_slice_take b j1 (min j2 (j1 + n)) j2 (by omega) (by omega), hslice,
          show min i2 (i1 + n) - i1 = min j2 (j1 + n) - j1 from by omega]
      have hcH : TagOK a b { c with i1 := max c.i1 (c.i2 - n), j1 := max c.j1 (c.j2 - n) } := by
        unfold TagOK
        rcases hcc : c with ⟨tag, i1, i2, j1, j2⟩
        rw [hcc] at he hlt hspan hslice hbig
        subst he
        dsimp only at hlt hspan hslice hbig ⊢
        refine ⟨by omega, by omega, ?_⟩
        rw [show max i1 (i2 - n) = i1 + (max i1 (i2 - n) - i1) from by omega,
          show max j1 (j2 - n) = j1 + (max j1 (j2 - n) - j1) from by omega,
          nat_slice_drop, nat_slice_drop, hslice,
          show max i1 (i2 - n) - i1 = max j1 (j2 - n) - j1 from by omega]
      have hmidslice : nat_slice a (min c.i2 (c.i1 + n)) (max c.i1 (c.i2 - n))
          = nat_slice b (min c.j2 (c.j1 + n)) (max c.j1 (c.j2 - n)) := by
        rw [nat_slice_take a (min c.i2 (c.i1 + n)) (max c.i1 (c.i2 - n)) c.i2
            (by omega) (by omega),
          nat_slice_take b (min c.j2 (c.j1 + n)) (max c.j1 (c.j2 - n)) c.j2
            (by omega) (by omega),
          show max c.i1 (c.i2 - n) - min c.i2 (c.i1 + n)
            = max c.j1 (c.j2 - n) - min c.j2 (c.j1 + n) from by omega]
        congr 1
        rw [show min c.i2 (c.i1 + n) = c.i1 + (min c.i2 (c.i1 + n) - c.i1) from by omega,
          show min c.j2 (c.j1 + n) = c.j1 + (min c.j2 (c.j1 + n) - c.j1) from by omega,
          nat_slice_drop, nat_slice_drop, hslice,
          show min c.i2 (c.i1 + n) - c.i1 = min c.j2 (c.j1 + n) - c.j1 from by omega]
      have hrec : GroupsOK a b (min c.i2 (c.i1 + n)) (min c.j2 (c.j1 + n))
          (group_codes n rest [{ c with i1 := max c.i1 (c.i2 - n), j1 := max c.j1 (c.j2 - n) }]) := by
        refine ih _ _ _ c.i2 c.j2 (max c.i1 (c.i2 - n)) (max c.j1 (c.j2 - n)) eA eB
          hc4 (alt_tail _ _ halt) hdrop heA heB h1A (Or.inr ?_)
        refine ⟨by simp, by omega, by omega, by omega, hmidslice, ?_, ?_, ?_, ?_, ?_, ?_⟩
        · exact ⟨rfl, rfl, hcH, rfl, rfl⟩
        · left
          show max c.i1 (c.i2 - n) < c.i2
          omega
        · rfl
        · rfl
        · rfl
        · rfl
      rcases hst with ⟨rfl, hp1, hp2, hp3, hp4, _⟩ |
        ⟨hgne, h2, h3, h4, h5, h6, h7, h8, h9, h10, h11⟩
      · rw [List.nil_append]
        refine ⟨min c.i2 (c.i1 + n), min c.j2 (c.j1 + n), ?_, ?_, ?_, ?_, by simp,
          ⟨rfl, rfl, hcT, rfl, rfl⟩, ?_, by omega, by omega, rfl, rfl, hrec⟩
        · show pA ≤ c.i1
          omega
        · show pB ≤ c.j1
          omega
        · show c.i1 - pA = c.j1 - pB
          omega
        · show nat_slice a pA c.i1 = nat_slice b pB c.j1
          rw [hc1, hc2]
          exact hp4
        · show c.i1 < min c.i2 (c.i1 + n)
          omega
      · refine ⟨min c.i2 (c.i1 + n), min c.j2 (c.j1 + n), ?_, ?_, ?_, ?_, by simp,
          ?_, ?_, by omega, by omega, ?_, ?_, hrec⟩
        · rw [headD_append_of_ne grp _ default hgne, h8]
          exact h2
        · rw [headD_append_of_ne grp _ default hgne, h9]
          exact h3
        · rw [headD_append_of_ne grp _ default hgne, h8, h9]
          exact h4
        · rw [headD_append_of_ne grp _ default hgne, h8, h9]
          exact h5
        · rw [headD_append_of_ne grp _ default hgne, h8, h9]
          exact tile_append a b grp _ _ _ curA curB _ _ h6
            ⟨by rw [hc1], by rw [hc2], hcT, rfl, rfl⟩
        · rw [headD_append_of_ne grp _ default hgne, h8]
          show gA1 < min c.i2 (c.i1 + n)
          rcases h7 with h7 | ⟨h7a, h7b⟩
          · omega
          · omega
        · rw [getLastD_concat]
        · rw [getLastD_concat]
    · rw [if_neg hsplit]
      have hextra : c.i1 < c.i2 ∨ c.i1 = c.i2 := TagOK_cases a b c hc3
      rcases hst with ⟨rfl, hp1, hp2, hp3, hp4, hp5⟩ |
        ⟨hgne, h2, h3, h4, h5, h6, h7, h8, h9, h10, h11⟩
      · rw [List.nil_append]
        refine ih [c] pA pB c.i2 c.j2 c.i1 c.j1 eA eB hc4 (alt_tail _ _ halt)
          hdrop heA heB h1A (Or.inr ?_)
        refine ⟨by simp, by omega, by omega, by omega, ?_, ⟨rfl, rfl, hc3, rfl, rfl⟩,
          ?_, rfl, rfl, rfl, rfl⟩
        · rw [hc1, hc2]
          exact hp4
        · rcases hextra with h | h
          · exact Or.inl h
          · rcases hp5 with h0 | ⟨c', cs', hcc, htag⟩
            · right
              omega
            · injection hcc with hce hcs
              have hTe := hc3
              unfold TagOK at hTe
              rw [← hce] at htag
              rw [htag] at hTe
              exact Or.inl hTe.1
      · refine ih (grp ++ [c]) pA pB c.i2 c.j2 gA1 gB1 eA eB hc4 (alt_tail _ _ halt)
          hdrop heA heB h1A (Or.inr ?_)
        refine ⟨by simp, h2, h3, h4, h5, ?_, ?_, ?_, ?_, ?_, ?_⟩
        · exact tile_append a b grp _ _ _ curA curB _ _ h6
            ⟨by rw [hc1], by rw [hc2], hc3, rfl, rfl⟩
        · rcases h7 with h7 | ⟨h7a, h7b⟩
          · left
            omega
          · rcases hextra with h | h
            · left
              omega
            · right
              omega
        · rw [headD_append_of_ne grp _ default hgne]
          exact h8
        · rw [headD_append_of_ne grp _ default hgne]
          exact h9
        · rw [getLastD_concat]
        · rw [getLastD_concat]

set_option maxHeartbeats 1000000 in
theorem get_grouped_ok (a b : List PyStr) (ha : a ≠ []) :
    GroupsOK a b 0 0 (get_grouped_opcodes a b 3) := by
  obtain ⟨hops, halt⟩ := get_opcodes_ok a b
  unfold get_grouped_opcodes
  dsimp only
  by_cases hc : get_opcodes a b = []
  · rw [hc] at hops
    have hlen : a.length = 0 := hops.1.symm
    exact absurd (List.length_eq_zero.mp hlen) ha
  · rw [if_neg hc]
    have hfix := fixes_ok a b ha (get_opcodes a b) hc hops halt
    generalize hG : fix_tail 3 (fix_head 3 (get_opcodes a b)) = codes2 at hfix ⊢
    obtain ⟨s0, eA, eB, ht, halt2, hne2, hgap0, hgapE, heA, heB, h1A, hhead⟩ := hfix
    refine group_codes_ok a b 3 (by omega) codes2 [] 0 0 s0 s0 0 0 eA eB ht halt2
      hgapE heA heB h1A (Or.inl ⟨rfl, by omega, by omega, by omega, hgap0, hhead⟩)

theorem split_hunk_lines_append (l1 l2 : List PyStr) :
    split_hunk_lines (l1 ++ l2)
      = ((split_hunk_lines l1).1 ++ (split_hunk_lines l2).1,
         (split_hunk_lines l1).2 ++ (split_hunk_lines l2).2) := by
  induction l1 with
  | nil => rfl
  | cons l rest ih =>
    obtain ⟨o1, n1, h1⟩ : ∃ o n, split_hunk_lines rest = (o, n) := ⟨_, _, rfl⟩
    have ih' : split_hunk_lines (rest ++ l2)
        = (o1 ++ (split_hunk_lines l2).1, n1 ++ (split_hunk_lines l2).2) := by
      rw [ih, h1]
    rw [List.cons_append, split_hunk_lines, ih', split_hunk_lines, h1]
    dsimp only
    split <;> simp

theorem split_map_ctx (xs : List PyStr) :
    split_hunk_lines (xs.map (' ' :: ·)) = (xs, xs) := by
  induction xs with
  | nil => rfl
  | cons x rest ih =>
    rw [List.map_cons, split_hunk_lines, ih]
    rfl

theorem split_map_minus (xs : List PyStr) :
    split_hunk_lines (xs.map ('-' :: ·)) = (xs, []) := by
  induction xs with
  | nil => rfl
  | cons x rest ih =>
    rw [List.map_cons, split_hunk_lines, ih]
    rfl

theorem split_map_plus (xs : List PyStr) :
    split_hunk_lines (xs.map ('+' :: ·)) = ([], xs) := by
  induction xs with
  | nil => rfl
  | cons x rest ih =>
    rw [List.map_cons, split_hunk_lines, ih]
    rfl

theorem map_rstrip_map_cons (p : Char) (hp : p ≠ '\n') (xs : List PyStr) :
    (xs.map (p :: ·)).map rstrip_nl = (xs.map rstrip_nl).map (p :: ·) := by
  rw [List.map_map, List.map_map]
  apply List.map_congr_left
  intro e _
  exact rstrip_nl_cons p e hp

theorem nat_slice_glue (l : List PyStr) (x y z : Nat) (h1 : x ≤ y) (h2 : y ≤ z)
    (hx : x ≤ l.length) :
    nat_slice l x y ++ nat_slice l y z = nat_slice l x z := by
  have hd := drop_decompose (l.take z) x y h1
    (by rw [List.length_take]; omega)
  unfold nat_slice at hd ⊢
  rw [List.take_take, min_eq_left h2] at hd
  exact hd.symm

set_option maxHeartbeats 1000000 in
theorem split_op (a b : List PyStr) (c : Opcode) (hok : TagOK a b c)
    (hia : c.i2 ≤ a.length) (hjb : c.j2 ≤ b.length) :
    split_hunk_lines ((opcode_lines a b c).map rstrip_nl)
      = ((nat_slice a c.i1 c.i2).map rstrip_nl, (nat_slice b c.j1 c.j2).map rstrip_nl) := by
  unfold opcode_lines
  unfold TagOK at hok
  rcases htag : c.tag with _ | _ | _ | _
  all_goals rw [htag] at hok
  · -- replace
    rw [List.map_append, map_rstrip_map_cons '-' (by decide), map_rstrip_map_cons '+' (by decide)]
    rw [split_hunk_lines_append, split_map_minus, split_map_plus]
    simp
  · -- delete
    rw [map_rstrip_map_cons '-' (by decide), split_map_minus]
    rw [hok.1, nat_slice_self]
    rfl
  · -- insert
    rw [map_rstrip_map_cons '+' (by decide), split_map_plus]
    rw [hok.1, nat_slice_self]
    rfl
  · -- equal
    rw [map_rstrip_map_cons ' ' (by decide), split_map_ctx]
    rw [hok.2.2]

set_option maxHeartbeats 1000000 in
theorem split_group (a b : List PyStr) :
    ∀ (g : List Opcode) (gA1 gB1 iE jE : Nat),
      GroupTile a b gA1 gB1 g iE jE → iE ≤ a.length → jE ≤ b.length →
      split_hunk_lines ((g.flatMap (opcode_lines a b)).map rstrip_nl)
        = ((nat_slice a gA1 iE).map rstrip_nl, (nat_slice b gB1 jE).map rstrip_nl) := by
  intro g
  induction g with
  | nil =>
    intro gA1 gB1 iE jE ht _ _
    obtain ⟨rfl, rfl⟩ := ht
    rw [nat_slice_self, nat_slice_self]
    rfl
  | cons c rest ih =>
    intro gA1 gB1 iE jE ht hiE hjE
    obtain ⟨hc1, hc2, hc3, hc4⟩ := ht
    obtain ⟨hm1, hm2⟩ := tile_mono a b rest c.i2 c.j2 iE jE hc4
    obtain ⟨hk1, hk2⟩ := TagOK_mono a b c hc3
    rw [List.flatMap_cons, List.map_append, split_hunk_lines_append,
      split_op a b c hc3 (by omega) (by omega), ih c.i2 c.j2 iE jE hc4 hiE hjE]
    dsimp only
    rw [← List.map_append, ← List.map_append,
      nat_slice_glue a c.i1 c.i2 iE hk1 hm1 (by omega),
      nat_slice_glue b c.j1 c.j2 jE hk2 hm2 (by omega), hc1, hc2]

theorem dropWhile_dropWhile (p : Char → Bool) (l : List Char) :
    (l.dropWhile p).dropWhile p = l.dropWhile p := by
  induction l with
  | nil => rfl
  | cons a t ih =>
    rw [List.dropWhile_cons]
    by_cases hp : p a = true
    · rw [if_pos hp]; exact ih
    · rw [if_neg hp, List.dropWhile_cons, if_neg hp]

theorem rstrip_nl_idem (l : PyStr) : rstrip_nl (rstrip_nl l) = rstrip_nl l := by
  unfold rstrip_nl
  rw [List.reverse_reverse, dropWhile_dropWhile]

theorem nat_dec_repr_no_nl (n : Nat) : '\n' ∉ nat_dec_repr n := by
  intro hm
  exact absurd ((nat_dec_repr_spec n).2.2 '\n' hm) (by decide)

theorem format_range_no_nl (s e : Nat) : '\n' ∉ format_range_unified s e := by
  unfold format_range_unified
  dsimp only
  by_cases h1 : e - s = 1
  · rw [if_pos h1]
    exact nat_dec_repr_no_nl _
  · rw [if_neg h1]
    intro hm
    rcases List.mem_append.mp hm with h | h
    · exact nat_dec_repr_no_nl _ h
    · rcases List.mem_cons.mp h with h | h
      · exact absurd h (by decide)
      · exact nat_dec_repr_no_nl _ h

theorem group_header_rstrip (g : List Opcode) :
    rstrip_nl (group_header g)
      = "@@ -".toList ++ format_range_unified (g.headD default).i1 (g.getLastD default).i2
        ++ " +".toList ++ format_range_unified (g.headD default).j1 (g.getLastD default).j2
        ++ " @@".toList := by
  unfold group_header
  rw [rstrip_nl_append_nl]
  apply rstrip_nl_of_not_mem
  intro hm
  simp only [List.mem_append] at hm
  rcases hm with ((((h | h) | h) | h) | h)
  · exact absurd h (by decide)
  · exact format_range_no_nl _ _ h
  · exact absurd h (by decide)
  · exact format_range_no_nl _ _ h
  · exact absurd h (by decide)

theorem nat_slice_append_shift (u v : List PyStr) (x y : Nat) :
    nat_slice (u ++ v) (u.length + x) (u.length + y) = nat_slice v x y := by
  unfold nat_slice
  rw [List.take_append, List.drop_append]

theorem nat_slice_of_drop (l : List PyStr) (d x y : Nat) :
    nat_slice (l.drop d) x y = nat_slice l (d + x) (d + y) := by
  unfold nat_slice
  rw [List.take_drop, List.drop_drop]

theorem nat_slice_append_ge (u v : List PyStr) (x y : Nat)
    (hx : u.length ≤ x) (hy : u.length ≤ y) :
    nat_slice (u ++ v) x y = nat_slice v (x - u.length) (y - u.length) := by
  have h1 : x = u.length + (x - u.length) := by omega
  have h2 : y = u.length + (y - u.length) := by omega
  conv_lhs => rw [h1, h2]
  rw [nat_slice_append_shift]

theorem take_glue (l : List PyStr) (x y : Nat) (h : x ≤ y) :
    l.take x ++ nat_slice l x y = l.take y := by
  have h1 : l.take x = (l.take y).take x := by
    rw [List.take_take, min_eq_left h]
  rw [h1]
  show (l.take y).take x ++ (l.take y).drop x = l.take y
  rw [List.take_append_drop]

theorem buffer_len (a b : List PyStr) (pA pB : Nat) (hpbB : pB ≤ b.length) :
    (b.take pB ++ a.drop pA).length = pB + (a.length - pA) := by
  rw [List.length_append, List.length_take, List.length_drop, min_eq_left hpbB]

theorem buffer_slice_eq (a b : List PyStr) (pA pB gA1 gB1 iE : Nat)
    (hpa : pA ≤ gA1) (hpb : pB ≤ gB1) (hdiff : gA1 - pA = gB1 - pB)
    (hga : gA1 ≤ iE) (hpbB : pB ≤ b.length) :
    nat_slice (b.take pB ++ a.drop pA) gB1 (gB1 + (iE - gA1)) = nat_slice a gA1 iE := by
  have hu : (b.take pB).length = pB := by
    rw [List.length_take]; omega
  rw [nat_slice_append_ge _ _ _ _ (by omega) (by omega), hu, nat_slice_of_drop]
  rw [show pA + (gB1 - pB) = gA1 from by omega,
      show pA + (gB1 + (iE - gA1) - pB) = iE from by omega]

theorem buffer_take_eq (a b : List PyStr) (pA pB gA1 gB1 : Nat)
    (hpa : pA ≤ gA1) (hpb : pB ≤ gB1) (hdiff : gA1 - pA = gB1 - pB)
    (hgap : nat_slice a pA gA1 = nat_slice b pB gB1)
    (hgb : gB1 ≤ b.length) :
    (b.take pB ++ a.drop pA).take gB1 = b.take gB1 := by
  have hu : (b.take pB).length = pB := by
    rw [List.length_take]; omega
  have h1 : gB1 = (b.take pB).length + (gB1 - pB) := by omega
  conv_lhs => rw [h1]
  rw [List.take_append]
  have h2 : (a.drop pA).take (gB1 - pB) = nat_slice a pA gA1 := by
    rw [List.take_drop]
    show nat_slice a pA (pA + (gB1 - pB)) = nat_slice a pA gA1
    rw [show pA + (gB1 - pB) = gA1 from by omega]
  rw [h2, hgap]
  exact take_glue b pB gB1 hpb

theorem buffer_drop_eq (a b : List PyStr) (pA pB gA1 gB1 iE : Nat)
    (hpa : pA ≤ gA1) (hpb : pB ≤ gB1) (hdiff : gA1 - pA = gB1 - pB)
    (hga : gA1 ≤ iE) (hpbB : pB ≤ b.length) :
    (b.take pB ++ a.drop pA).drop (gB1 + (iE - gA1)) = a.drop iE := by
  have hu : (b.take pB).length = pB := by
    rw [List.length_take]; omega
  have h1 : gB1 + (iE - gA1) = (b.take pB).length + ((gB1 - pB) + (iE - gA1)) := by omega
  rw [h1, List.drop_append, List.drop_drop]
  rw [show pA + ((gB1 - pB) + (iE - gA1)) = iE from by omega]

theorem py_slice_nil (i j : Int) : py_slice ([] : List PyStr) i j = [] := by
  unfold py_slice
  simp

set_option maxHeartbeats 1000000 in
theorem apply_hunk_group (a b : List PyStr)
    (hbBody : ∀ l ∈ b, '\n' ∉ l.dropLast)
    (hbNl : ∀ l ∈ b, l.getLast? = some '\n')
    (g : List Opcode) (h : Hunk) (pA pB gA1 gB1 iE jE : Nat)
    (hhd1 : (g.headD default).i1 = gA1) (hhd2 : (g.headD default).j1 = gB1)
    (hli : (g.getLastD default).i2 = iE) (hlj : (g.getLastD default).j2 = jE)
    (hhdr : h.header = rstrip_nl (group_header g))
    (hlns : h.lines = (g.flatMap (opcode_lines a b)).map rstrip_nl)
    (hpa : pA ≤ gA1) (hpb : pB ≤ gB1) (hdiff : gA1 - pA = gB1 - pB)
    (hgap : nat_slice a pA gA1 = nat_slice b pB gB1)
    (ht : GroupTile a b gA1 gB1 g iE jE)
    (hlt : gA1 < iE) (hiA : iE ≤ a.length) (hjB : jE ≤ b.length)
    (hpbB : pB ≤ b.length) :
    apply_single_hunk (b.take pB ++ a.drop pA) h ((pB : Int) - (pA : Int))
      = (true, b.take jE ++ a.drop iE, (jE : Int) - (iE : Int)) := by
  obtain ⟨hmA, hmB⟩ := tile_mono a b g gA1 gB1 iE jE ht
  have hhdr2 : h.header
      = "@@ -".toList ++ format_range_unified gA1 iE ++ " +".toList
        ++ format_range_unified gB1 jE ++ " @@".toList := by
    rw [hhdr, group_header_rstrip, hhd1, hhd2, hli, hlj]
  obtain ⟨oc, ns, nc, hparse0⟩ := parse_header_built gA1 iE gB1 jE hlt
  have hparse : parse_hunk_header h.header = some ⟨gA1 + 1, oc, ns, nc⟩ := by
    rw [hhdr2]; exact hparse0
  have hsplit : split_hunk_lines h.lines
      = ((nat_slice a gA1 iE).map rstrip_nl, (nat_slice b gB1 jE).map rstrip_nl) := by
    rw [hlns]; exact split_group a b g gA1 gB1 iE jE ht hiA hjB
  have hla : (nat_slice a gA1 iE).length = iE - gA1 := by
    unfold nat_slice; rw [List.length_drop, List.length_take]; omega
  have hlb : (nat_slice b gB1 jE).length = jE - gB1 := by
    unfold nat_slice; rw [List.length_drop, List.length_take]; omega
  have hbl : (b.take pB ++ a.drop pA).length = pB + (a.length - pA) :=
    buffer_len a b pA pB hpbB
  unfold apply_single_hunk
  rw [hparse, hsplit]
  dsimp only
  rw [show ((gA1 + 1 : Nat) : Int) - 1 + ((pB : Int) - (pA : Int)) = ((gB1 : Nat) : Int)
    from by omega]
  simp only [List.length_map]
  rw [hla, hlb, hbl]
  rw [show ((gB1 : Nat) : Int) + ((iE - gA1 : Nat) : Int) = (((gB1 + (iE - gA1)) : Nat) : Int)
    from by omega]
  rw [if_neg (show ¬ (((pB + (a.length - pA) : Nat) : Int)
      < (((gB1 + (iE - gA1)) : Nat) : Int)) from by omega)]
  have hact : List.map rstrip_nl
        (py_slice (b.take pB ++ a.drop pA) ((gB1 : Nat) : Int)
          (((gB1 + (iE - gA1)) : Nat) : Int))
      = List.map rstrip_nl (nat_slice a gA1 iE) := by
    rw [py_slice_coe]
    exact congrArg (List.map rstrip_nl)
      (buffer_slice_eq a b pA pB gA1 gB1 iE hpa hpb hdiff (le_of_lt hlt) hpbB)
  rw [hact]
  rw [show List.map rstrip_nl (List.map rstrip_nl (nat_slice a gA1 iE))
      = List.map rstrip_nl (nat_slice a gA1 iE) from by
    rw [List.map_map]
    exact List.map_congr_left (fun e _ => rstrip_nl_idem e)]
  rw [if_neg (show ¬ (List.map rstrip_nl (nat_slice a gA1 iE)
      ≠ List.map rstrip_nl (nat_slice a gA1 iE)) from fun hk => hk rfl)]
  rw [show py_slice (b.take pB ++ a.drop pA) 0 ((gB1 : Nat) : Int) = b.take gB1 from by
    rw [show (0 : Int) = ((0 : Nat) : Int) from rfl, py_slice_coe, List.drop_zero]
    exact buffer_take_eq a b pA pB gA1 gB1 hpa hpb hdiff hgap (le_trans hmB hjB)]
  rw [show py_slice (b.take pB ++ a.drop pA) (((gB1 + (iE - gA1)) : Nat) : Int)
        (((pB + (a.length - pA)) : Nat) : Int) = a.drop iE from by
    rw [py_slice_coe, List.take_of_length_le (le_of_eq hbl)]
    exact buffer_drop_eq a b pA pB gA1 gB1 iE hpa hpb hdiff (le_of_lt hlt) hpbB]
  rw [show List.map (· ++ ['\n']) (List.map rstrip_nl (nat_slice b gB1 jE))
      = nat_slice b gB1 jE from by
    rw [List.map_map]
    have hpt : ∀ e ∈ nat_slice b gB1 jE, ((· ++ ['\n']) ∘ rstrip_nl) e = id e := by
      intro e he
      have heb : e ∈ b := nat_slice_subset b gB1 jE e he
      exact rstrip_nl_restore e (hbBody e heb) (hbNl e heb)
    rw [List.map_congr_left hpt, List.map_id]]
  rw [take_glue b gB1 jE hmB]
  simp only [Prod.mk.injEq]
  refine ⟨by trivial, by trivial, by omega⟩

theorem apply_groups_fold (a b : List PyStr)
    (hbBody : ∀ l ∈ b, '\n' ∉ l.dropLast)
    (hbNl : ∀ l ∈ b, l.getLast? = some '\n') :
    ∀ (groups : List (List Opcode)) (pA pB idx : Nat) (buf : List PyStr) (off : Int),
      GroupsOK a b pA pB groups → pB ≤ b.length →
      buf = b.take pB ++ a.drop pA → off = (pB : Int) - (pA : Int) →
      (List.foldl
        (fun (st : List PyStr × Int) h =>
          let r := apply_single_hunk st.1 h st.2
          (r.2.1, r.2.2))
        (buf, off)
        (mk_hunks idx (groups.map (fun g =>
          (group_header g, g.flatMap (opcode_lines a b)))))).1 = b := by
  intro groups
  induction groups with
  | nil =>
    intro pA pB idx buf off hOK hpbB hbuf hoff
    unfold GroupsOK at hOK
    rw [List.map_nil]
    rw [show mk_hunks idx ([] : List (PyStr × List PyStr)) = [] from rfl]
    rw [List.foldl_nil, hbuf, hOK, List.take_append_drop]
  | cons g rest ih =>
    intro pA pB idx buf off hOK hpbB hbuf hoff
    obtain ⟨iE, jE, hpa, hpb, hdiff, hgap, hgne, ht, hlt, hiA, hjB, hli, hlj, hrest⟩ := hOK
    rw [List.map_cons, mk_hunks, List.foldl_cons]
    dsimp only
    have happ : apply_single_hunk buf
        (finish_hunk ⟨idx, rstrip_nl (group_header g),
          (g.flatMap (opcode_lines a b)).map rstrip_nl, []⟩) off
        = (true, b.take jE ++ a.drop iE, (jE : Int) - (iE : Int)) := by
      rw [hbuf, hoff]
      exact apply_hunk_group a b hbBody hbNl g _ pA pB _ _ iE jE rfl rfl hli hlj rfl rfl
        hpa hpb hdiff hgap ht hlt hiA hjB hpbB
    rw [happ]
    exact ih iE jE (idx + 1) _ _ hrest hjB rfl rfl

theorem parse_header_ins (lb : Nat) :
    ∃ ns nc, parse_hunk_header
        ("@@ -".toList ++ format_range_unified 0 0 ++ " +".toList
          ++ format_range_unified 0 lb ++ " @@".toList)
      = some ⟨0, 0, ns, nc⟩ := by
  obtain ⟨v2, w2, s2, hp2, ho2, _⟩ := parse_fr_chain 0 lb ['@', '@']
  refine ⟨v2, w2, ?_⟩
  have hshape : "@@ -".toList ++ format_range_unified 0 0 ++ " +".toList
        ++ format_range_unified 0 lb ++ " @@".toList
      = "@@ -".toList ++ (nat_dec_repr 0 ++ ',' :: (nat_dec_repr 0
          ++ ' ' :: ('+' :: (format_range_unified 0 lb ++ ' ' :: ['@', '@'])))) := by
    rw [show format_range_unified 0 0 = nat_dec_repr 0 ++ ',' :: nat_dec_repr 0 from rfl]
    simp
  rw [hshape]
  unfold parse_hunk_header
  rw [expect_lit_append]
  have hq1 := parse_nat_run_repr 0 ',' (nat_dec_repr 0
    ++ ' ' :: ('+' :: (format_range_unified 0 lb ++ ' ' :: ['@', '@']))) (by decide)
  have hq2 : parse_opt_count (',' :: (nat_dec_repr 0
        ++ ' ' :: ('+' :: (format_range_unified 0 lb ++ ' ' :: ['@', '@']))))
      = some (0, ' ' :: ('+' :: (format_range_unified 0 lb ++ ' ' :: ['@', '@']))) := by
    show parse_nat_run (nat_dec_repr 0
      ++ ' ' :: ('+' :: (format_range_unified 0 lb ++ ' ' :: ['@', '@']))) = _
    exact parse_nat_run_repr 0 ' ' _ (by decide)
  simp only [Option.pure_def, Option.bind_eq_bind, Option.some_bind, hq1, hq2]
  rw [show (' ' :: ('+' :: (format_range_unified 0 lb ++ ' ' :: ['@', '@'])))
      = " +".toList ++ (format_range_unified 0 lb ++ ' ' :: ['@', '@']) from rfl]
  rw [expect_lit_append]
  simp only [Option.some_bind, hp2, ho2]
  rw [show (' ' :: ['@', '@']) = " @@".toList ++ ([] : PyStr) from rfl]
  rw [expect_lit_append]
  rfl

theorem get_opcodes_nil_left (b : List PyStr) (hlb : 0 < b.length) :
    get_opcodes [] b = [⟨.insert, 0, 0, 0, b.length⟩] := by
  have hmb : get_matching_blocks [] b = [(0, b.length, 0)] := rfl
  unfold get_opcodes
  rw [hmb, opcodes_loop]
  rw [if_neg (by omega), if_neg (by omega), if_pos hlb, if_neg (by omega)]
  rw [opcodes_loop]
  simp

theorem grouped_nil_left (b : List PyStr) (hlb : 0 < b.length) :
    get_grouped_opcodes [] b 3 = [[⟨.insert, 0, 0, 0, b.length⟩]] := by
  unfold get_grouped_opcodes
  dsimp only
  rw [get_opcodes_nil_left b hlb]
  rfl

theorem apply_ins_hunk (b : List PyStr) (hlb : 0 < b.length)
    (hbBody : ∀ l ∈ b, '\n' ∉ l.dropLast)
    (hbNl : ∀ l ∈ b, l.getLast? = some '\n')
    (h : Hunk)
    (hhdr : h.header = rstrip_nl (group_header [⟨.insert, 0, 0, 0, b.length⟩]))
    (hlns : h.lines = ([⟨.insert, 0, 0, 0, b.length⟩].flatMap
        (opcode_lines [] b)).map rstrip_nl) :
    (apply_single_hunk [] h 0).2.1 = b := by
  have hhdr2 : h.header
      = "@@ -".toList ++ format_range_unified 0 0 ++ " +".toList
        ++ format_range_unified 0 b.length ++ " @@".toList := by
    rw [hhdr, group_header_rstrip]
    rfl
  obtain ⟨ns, nc, hparse0⟩ := parse_header_ins b.length
  have hparse : parse_hunk_header h.header = some ⟨0, 0, ns, nc⟩ := by
    rw [hhdr2]; exact hparse0
  have hsplit : split_hunk_lines h.lines = ([], b.map rstrip_nl) := by
    rw [hlns]
    rw [show ([⟨.insert, 0, 0, 0, b.length⟩].flatMap (opcode_lines [] b))
        = b.map ('+' :: ·) from by
      rw [List.flatMap_cons, List.flatMap_nil, List.append_nil]
      show (nat_slice b 0 b.length).map ('+' :: ·) = b.map ('+' :: ·)
      rw [show nat_slice b 0 b.length = b from by
        rw [nat_slice_to_end, List.drop_zero]]]
    rw [map_rstrip_map_cons '+' (by decide), split_map_plus]
  unfold apply_single_hunk
  rw [hparse, hsplit]
  dsimp only
  simp only [List.length_nil, Nat.cast_zero, py_slice_nil, List.map_nil,
    List.nil_append, List.append_nil]
  rw [if_neg (show ¬ ((0 : Int) < 0 - 1 + 0 + 0) from by omega)]
  rw [if_neg (show ¬ (([] : List PyStr) ≠ ([] : List PyStr)) from fun hk => hk rfl)]
  show List.map (· ++ ['\n']) (List.map rstrip_nl b) = b
  rw [List.map_map]
  have hpt : ∀ e ∈ b, ((· ++ ['\n']) ∘ rstrip_nl) e = id e := fun e he =>
    rstrip_nl_restore e (hbBody e he) (hbNl e he)
  rw [List.map_congr_left hpt, List.map_id]

/-- The unrestricted round-trip claim of C1 fails when the reference text's
final line is not newline-terminated: applying the single hunk of
`compute_hunks` for `A = "a\n"`, `B = "b"` yields `"b\n"`, not `B`. -/
theorem C1_counterexample :
    joinL ((apply_all_hunks (compute_hunks [] "a\n".toList "b".toList)
        (py_splitlines "a\n".toList)).1) ≠ "b".toList := by
  decide

set_option maxHeartbeats 1000000 in
/-- C1 (amended): for any path, any current text `A` and any reference text
`B` all of whose lines are newline-terminated, applying all hunks returned
by `compute_hunks(path, A, B)` to `A`'s line buffer in ascending index
order, threading the offset returned by each `apply_single_hunk` call into
the next, produces exactly `B`.  (The original claim over arbitrary `B` is
refuted by `C1_counterexample`: applied lines are always rewritten
newline-terminated, so a reference whose last line lacks a newline is not
reproduced exactly.) -/
theorem C1_round_trip (p A B : PyStr) (hB : nl_terminated_lines B) :
    joinL ((apply_all_hunks (compute_hunks p A B) (py_splitlines A)).1) = B := by
  have hbBody : ∀ l ∈ py_splitlines B, '\n' ∉ l.dropLast :=
    fun l hl => (py_splitlines_lines B l hl).2
  have hbNl : ∀ l ∈ py_splitlines B, l.getLast? = some '\n' := hB
  by_cases ha : py_splitlines A = []
  · have hA : A = [] := by
      have hj := py_splitlines_join A
      rw [ha] at hj
      exact hj.symm
    subst hA
    by_cases hb : py_splitlines B = []
    · have hB0 : B = [] := by
        have hj := py_splitlines_join B
        rw [hb] at hj
        exact hj.symm
      subst hB0
      rfl
    · have hlb : 0 < (py_splitlines B).length := List.length_pos.mpr hb
      rw [compute_hunks_eq_mk, ha, grouped_nil_left (py_splitlines B) hlb]
      rw [List.map_cons, List.map_nil]
      simp only [mk_hunks]
      unfold apply_all_hunks
      rw [List.foldl_cons, List.foldl_nil]
      dsimp only
      rw [apply_ins_hunk (py_splitlines B) hlb hbBody hbNl _ rfl rfl]
      exact py_splitlines_join B
  · rw [compute_hunks_eq_mk]
    unfold apply_all_hunks
    have hf := apply_groups_fold (py_splitlines A) (py_splitlines B) hbBody hbNl
      (get_grouped_opcodes (py_splitlines A) (py_splitlines B) 3) 0 0 0
      (py_splitlines A) 0 (get_grouped_ok _ _ ha) (Nat.zero_le _)
      (by simp) (by simp)
    rw [hf]
    exact py_splitlines_join B

/-- Witness for the amended C1 at a concrete input: `A = "a\n"`,
`B = "b\n"` (a newline-terminated reference) round-trips exactly. -/
theorem C1_round_trip_witness :
    nl_terminated_lines "b\n".toList ∧
      joinL ((apply_all_hunks (compute_hunks "f".toList "a\n".toList "b\n".toList)
          (py_splitlines "a\n".toList)).1) = "b\n".toList :=
  ⟨by decide, C1_round_trip "f".toList "a\n".toList "b\n".toList (by decide)⟩
